import Mathlib

/-!
# Verification of the `ncon` tensor-network contraction engine

A shallow embedding of `src/ncon_torch/ncon.py`.  Tensors are modelled at the
shape level (the numeric kernels live in the backend, which is out of scope
per the specification, §1 and §6); index labels are integers or strings, as in
the source.  Python lists become Lean lists, in-place mutation becomes
explicit state passing, and functions that can raise become `Except`-valued.
-/

/-- An index label: Python allows integers or other hashable values such as
strings (`ncon.py` docstring).  We model the two kinds the spec names. -/
inductive Label where
  | int : Int → Label
  | str : String → Label
deriving DecidableEq, Repr

/-- A tensor, modelled at the shape level: its per-axis sizes, plus the
optional custom compatibility predicate probed by `do_check_indices`
(`L[A0].compatible_indices(L[A1], ind0, ind1)`; the `AttributeError` fallback
is modelled by the `hasCompat` flag).  The predicate receives the other
tensor's shape and the two axis positions. -/
structure Tensor where
  shape : List Nat
  hasCompat : Bool
  compatFn : List Nat → Nat → Nat → Bool

instance : Inhabited Tensor := ⟨⟨[], false, fun _ _ _ => false⟩⟩

/-- The errors `ncon.py` can raise (`ValueError` subclasses in the source;
we keep one constructor per raise site that matters to the claims). -/
inductive NconError where
  | numMismatch
  | rankMismatch (i : Nat)
  | notTwice (e : Label)
  | notCompatible (e : Label)
  | notOnce (e : Label)
  | tconTooMany
  | tconTooFew
  | traceNotTwice
  | forderMissing (e : Label)
  | nonIntIndices
  | emptyNetwork
  | outOfFuel
deriving DecidableEq, Repr

/-- Ghost instrumentation: one event per backend invocation, used to state
that validation failures happen before any backend call (spec §8,
"performs no backend calls"). -/
inductive BCall where
  | conC
  | traceC
  | permC
  | expandC
deriving DecidableEq, Repr

/-- Remove from a list the entries whose position (counting from `j`)
appears in `axes`, keeping the relative order of the survivors. -/
def removeAxesFrom (axes : List Nat) : Nat → List Nat → List Nat
  | _, [] => []
  | j, x :: xs =>
    if j ∈ axes then removeAxesFrom axes (j + 1) xs
    else x :: removeAxesFrom axes (j + 1) xs

/-- Remove from `s` the positions listed in `axes` (keeping the relative
order of the surviving positions). -/
def removeAxes (s : List Nat) (axes : List Nat) : List Nat :=
  removeAxesFrom axes 0 s

/-- Modelled from the spec: the backend's `pairwise_contract` (named `con` in
`ncon.py`'s import list; the backend module is not part of the given source).
Spec §6: "result rank = rank(A) + rank(B) − 2·len(axesA), with surviving axes
of A (in original relative order) followed by surviving axes of B (in
original relative order)". -/
def con (A B : Tensor) (axesA axesB : List Nat) : Tensor :=
  ⟨removeAxes A.shape axesA ++ removeAxes B.shape axesB, false, fun _ _ _ => false⟩

/-- Modelled from the spec: the backend's `trace` operation.  Spec §6:
"removes axes axis1 and axis2 ...; result rank = rank(tensor) − 2, remaining
axes in original relative order". -/
def trace (A : Tensor) (ax1 ax2 : Nat) : Tensor :=
  ⟨removeAxes A.shape [ax1, ax2], false, fun _ _ _ => false⟩

/-- Modelled from the spec: the backend's `permute` operation.  Spec §6:
"result axis k = input axis perm[k]". -/
def permute (A : Tensor) (perm : List Nat) : Tensor :=
  ⟨perm.map (fun k => A.shape.getD k 0), false, fun _ _ _ => false⟩

/-- Modelled from the spec: the backend's `expand_dims` operation.  Spec §6:
"inserts a new size-1 axis at position axis". -/
def expand_dims (A : Tensor) (axis : Nat) : Tensor :=
  ⟨A.shape.insertIdx axis 1, false, fun _ _ _ => false⟩

/-- `indices_are_ints`: True iff every label in every leg list is an
integer. -/
def indices_are_ints (v : List (List Label)) : Bool :=
  v.all (fun lst => lst.all (fun e => match e with | .int _ => true | .str _ => false))

/-- `create_order`: all unique positive (integer) indices, sorted ascending.
Only invoked on all-integer `v` (guarded by `indices_are_ints` in
`preprocess_forder_order`), so dropping non-integer labels is unreachable.
Python's `list(set(x))` dedup plus `sorted` yields the sorted duplicate-free
list, which we compute directly. -/
def create_order (v : List (List Label)) : List Label :=
  let flat_v := v.flatten
  let x := flat_v.filterMap (fun l => match l with
    | .int n => if 0 < n then some n else none
    | .str _ => none)
  (x.dedup.insertionSort (· ≤ ·)).map Label.int

/-- `create_forder`: all unique negative (integer) indices, reverse sorted
(−1 first).  Same conventions as `create_order`. -/
def create_forder (v : List (List Label)) : List Label :=
  let flat_v := v.flatten
  let x := flat_v.filterMap (fun l => match l with
    | .int n => if n < 0 then some n else none
    | .str _ => none)
  (x.dedup.insertionSort (· ≥ ·)).map Label.int

/-- Which of the two optional arguments `preprocess_forder_order` is
handling (the Python source dispatches on the string name). -/
inductive OrderKind where
  | order
  | forder
deriving DecidableEq, Repr

/-- `preprocess_forder_order`: supply the default when the argument is
omitted, failing if the leg labels are not all integers.  A supplied
argument is already a list in this typed embedding, so the
non-string-iterable check always passes. -/
def preprocess_forder_order (arg : Option (List Label)) (v : List (List Label))
    (name : OrderKind) : Except NconError (List Label) :=
  match arg with
  | none =>
      if indices_are_ints v then
        .ok (match name with
          | .order => create_order v
          | .forder => create_forder v)
      else .error .nonIntIndices
  | some a => .ok a

/-! ## The index validator `do_check_indices` -/

/-- One row of `v_pairs` zipped with `v_sum`: the pairs `((i, j), v[i][j])`
for a single leg list `v[i] = inds`, with `i` fixed and `j` counting from
`j₀`. -/
def leg_row (i : Nat) : Nat → List Label → List ((Nat × Nat) × Label)
  | _, [] => []
  | j, x :: xs => ((i, j), x) :: leg_row i (j + 1) xs

/-- All of `zip(v_pairs, v_sum)` from the source (both are flattened in
row-major order, so the zip is the row-major list of
`((tensor, axis), label)` triples), with the tensor number counting from
`i₀`. -/
def leg_positions : Nat → List (List Label) → List ((Nat × Nat) × Label)
  | _, [] => []
  | i, inds :: rest => leg_row i 0 inds ++ leg_positions (i + 1) rest

/-- `order_groups[i]` from the source: the `(tensor, axis)` locations whose
label equals `e`, in row-major order. -/
def order_group (v : List (List Label)) (e : Label) : List (Nat × Nat) :=
  (leg_positions 0 v).filterMap (fun t => if t.2 = e then some t.1 else none)

/-- The compatibility test of `do_check_indices` step 4:
`L[A0].compatible_indices(L[A1], ind0, ind1)` when the tensor exposes the
custom predicate (modelled by `hasCompat`), else size equality
`L[A0].shape[ind0] == L[A1].shape[ind1]`. -/
def compat_check (L : List Tensor) (A0 ind0 A1 ind1 : Nat) : Bool :=
  let t0 := L.getD A0 default
  let t1 := L.getD A1 default
  if t0.hasCompat then t0.compatFn t1.shape ind0 ind1
  else (t0.shape.getD ind0 0) == (t1.shape.getD ind1 0)

/-- Check 2 of `do_check_indices`: every leg list has as many labels as its
tensor has axes (`i` is the running tensor number, used in the error). -/
def checkRanks : Nat → List (List Label × List Nat) → Except NconError Unit
  | _, [] => .ok ()
  | i, (inds, s) :: rest =>
    if inds.length ≠ s.length then .error (.rankMismatch i)
    else checkRanks (i + 1) rest

/-- Checks 3 and 4 of `do_check_indices`, iterating over `order`: each index
must label exactly two legs, and those two legs must be compatible. -/
def check_order_groups (L : List Tensor) (v : List (List Label)) :
    List Label → Except NconError Unit
  | [] => .ok ()
  | e :: rest =>
    match order_group v e with
    | [(A0, ind0), (A1, ind1)] =>
        if compat_check L A0 ind0 A1 ind1 then check_order_groups L v rest
        else .error (.notCompatible e)
    | _ => .error (.notTwice e)

/-- The `forder` part of check 3: each free index must label exactly one
leg (`len(forder_groups[i])` is the number of occurrences of the label in
the flattened `v`). -/
def check_forder_groups (v : List (List Label)) : List Label → Except NconError Unit
  | [] => .ok ()
  | e :: rest =>
    if v.flatten.count e = 1 then check_forder_groups v rest
    else .error (.notOnce e)

/-- `do_check_indices(L, v, order, forder)`: the four structural checks of
the source, in source order, returning `True` when all pass. -/
def do_check_indices (L : List Tensor) (v : List (List Label))
    (order forder : List Label) : Except NconError Bool :=
  if L.length ≠ v.length then .error .numMismatch
  else
    match checkRanks 0 (v.zip (L.map Tensor.shape)) with
    | .error err => .error err
    | .ok _ =>
      match check_order_groups L v order with
      | .error err => .error err
      | .ok _ =>
        match check_forder_groups v forder with
        | .error err => .error err
        | .ok _ => .ok true

/-! ## Scheduler helpers -/

/-- `get_tcon(v, index)`: the positions in `v` of the leg lists containing
`index`, with the defensive degree checks of the source. -/
def get_tcon (v : List (List Label)) (index : Label) : Except NconError (List Nat) :=
  let tcon := ((List.range v.length).filter (fun i => index ∈ v.getD i []))
  if tcon.length > 2 then .error .tconTooMany
  else if tcon.length < 1 then .error .tconTooFew
  else if tcon.length = 1 then
    if (v.getD (tcon.getD 0 0) []).count index ≠ 2 then .error .traceNotTwice
    else .ok tcon
  else .ok tcon

/-- `get_icon(v, tcon)`: the labels shared by the two leg lists `v[tcon[0]]`
and `v[tcon[1]]` (Python materialises `set ∩ set` as a list in unspecified
order; we keep first-occurrence order of `v[tcon[0]]`, deduplicated). -/
def get_icon (v : List (List Label)) (tcon : List Nat) : List Label :=
  let inds1 := v.getD (tcon.getD 0 0) []
  let inds2 := v.getD (tcon.getD 1 0) []
  (inds1.filter (fun e => e ∈ inds2)).dedup

/-- The axis positions of one leg list that carry the label `e`
(`[i for i, x in enumerate(inds) if x == e]`), counting from `j`. -/
def positions_of (e : Label) : Nat → List Label → List Nat
  | _, [] => []
  | j, x :: xs =>
    if x = e then j :: positions_of e (j + 1) xs else positions_of e (j + 1) xs

/-- `get_pos(v, tcon, icon)`: for each participant, the concatenated axis
positions of the labels of `icon`, in `icon` order; `pos2 = []` for a
trace. -/
def get_pos (v : List (List Label)) (tcon : List Nat) (icon : List Label) :
    List Nat × List Nat :=
  let pos1 := (icon.map (fun e => positions_of e 0 (v.getD (tcon.getD 0 0) []))).flatten
  let pos2 :=
    if tcon.length < 2 then []
    else (icon.map (fun e => positions_of e 0 (v.getD (tcon.getD 1 0) []))).flatten
  (pos1, pos2)

/-- `find_newv(v, tcon, icon)`: the leg list of the freshly contracted
tensor — the concatenation of the participants' leg lists (or the single
list for a trace) with every label of `icon` removed. -/
def find_newv (v : List (List Label)) (tcon : List Nat) (icon : List Label) :
    List Label :=
  let newv :=
    if tcon.length = 2 then v.getD (tcon.getD 0 0) [] ++ v.getD (tcon.getD 1 0) []
    else v.getD (tcon.getD 0 0) []
  newv.filter (fun i => i ∉ icon)

/-- `renew_order(order, icon)`: drop the just-contracted labels from the
order. -/
def renew_order (order : List Label) (icon : List Label) : List Label :=
  order.filter (fun i => i ∉ icon)

/-- `permute_final(A, v, forder)`: the axis permutation sending axis `k` of
the output to position `v.index(forder[k])` of the final tensor; Python's
`list.index` raises when the label is missing. -/
def build_perm (v : List Label) : List Label → Except NconError (List Nat)
  | [] => .ok []
  | e :: rest =>
    match v.indexOf? e with
    | none => .error (.forderMissing e)
    | some k => do
        let ks ← build_perm v rest
        pure (k :: ks)

/-- `permute_final` proper: build the permutation and delegate to the
backend's `permute`. -/
def permute_final (A : Tensor) (v : List Label) (forder : List Label) :
    Except NconError Tensor := do
  let perm ← build_perm v forder
  pure (permute A perm)

/-! ## Connectivity repair (`connect_graph`)

Python uses `set` objects whose iteration/`pop` order is unspecified; we
model them as duplicate-free lists, with `pop` taking the head and `add`
appending.  The two `while` loops become fuel-indexed recursions; the fuel
supplied by `connect_graph` is proved sufficient below, so the fuel-exhausted
branch (which returns the state unchanged) is never taken. -/

/-- Adding an element to a Python set: a no-op when already present. -/
def set_add (s : List Nat) (x : Nat) : List Nat := if x ∈ s then s else s ++ [x]

/-- The tensors neighbouring tensor `i`:
`(j for j, j_inds in enumerate(v) if i_inds.intersection(j_inds))`. -/
def neighbors (v : List (List Label)) (i : Nat) : List Nat :=
  let i_inds := v.getD i []
  (List.range v.length).filter (fun j => (v.getD j []).any (fun e => e ∈ i_inds))

/-- The inner `while to_visit:` loop of `connect_graph`: grow one connected
component.  Returns the updated `(unvisited, visited, component)`. -/
def bfs_inner (v : List (List Label)) :
    Nat → List Nat → List Nat → List Nat → List Nat →
    List Nat × List Nat × List Nat
  | 0, unvisited, visited, component, _ => (unvisited, visited, component)
  | fuel + 1, unvisited, visited, component, toVisit =>
    match toVisit with
    | [] => (unvisited, visited, component)
    | i :: rest =>
      let unvisited' := unvisited.filter (fun y => y ≠ i)
      let component' := set_add component i
      let visited' := set_add visited i
      let toVisit' := (neighbors v i).foldl
        (fun tv j => if j ∈ visited' then tv else set_add tv j) rest
      bfs_inner v fuel unvisited' visited' component' toVisit'

/-- The outer `while unvisited:` loop of `connect_graph`: collect the list
of connected components (`ccomponents` in the source). -/
def bfs_components (v : List (List Label)) (innerFuel : Nat) :
    Nat → List Nat → List Nat → List (List Nat) → List (List Nat)
  | 0, _, _, acc => acc
  | fuel + 1, unvisited, visited, acc =>
    match unvisited with
    | [] => acc
    | seed :: unvisited' =>
      let (unvisited'', visited', component) :=
        bfs_inner v innerFuel unvisited' visited [] [seed]
      bfs_components v innerFuel fuel unvisited'' visited' (acc ++ [component])

lemma mem_le_foldr_max (l : List Nat) (x : Nat) (hx : x ∈ l) :
    x ≤ l.foldr max 0 := by
  induction l with
  | nil => cases hx
  | cons a l ih =>
    rcases List.mem_cons.mp hx with h | h
    · subst h; exact Nat.le_max_left _ _
    · exact le_trans (ih h) (Nat.le_max_right _ _)

lemma exists_fresh (order : List Label) :
    ∃ k : Nat, 0 < k ∧ Label.int (k : Int) ∉ order := by
  classical
  let bound := (order.filterMap (fun l => match l with
    | Label.int n => some n.toNat
    | Label.str _ => none)).foldr max 0
  refine ⟨bound + 1, Nat.succ_pos _, fun hmem => ?_⟩
  have hb : (bound + 1 : Nat) ≤ bound := by
    apply mem_le_foldr_max
    apply List.mem_filterMap.mpr
    refine ⟨Label.int ((bound + 1 : Nat) : Int), hmem, ?_⟩
    simp
  omega

/-- The `dim_num = 1; while dim_num in order: dim_num += 1` loop: the
smallest positive integer whose label is not already in `order`. -/
def fresh_label (order : List Label) : Nat :=
  Nat.find (exists_fresh order)

/-- The `while ccomponents:` linking loop of `connect_graph`.  `c` is the
representative of the last component; the remaining components are
processed from the back of `ccomponents` (Python's `list.pop()`), so the
caller passes them reversed.  The `[]` component case is unreachable
(components are nonempty) and links nothing. -/
def link_loop (c : Nat) :
    List (List Nat) → List Tensor → List (List Label) → List Label → List BCall →
    List Tensor × List (List Label) × List Label × List BCall
  | [], L, v, order, ev => (L, v, order, ev)
  | comp :: restRev, L, v, order, ev =>
    match comp with
    | [] => link_loop c restRev L v order ev
    | d :: _ =>
      let A_c := L.getD c default
      let A_d := L.getD d default
      let c_axis := (v.getD c []).length
      let d_axis := (v.getD d []).length
      let L1 := (L.set c (expand_dims A_c c_axis)).set d (expand_dims A_d d_axis)
      let dim_num : Label := .int (fresh_label order : Int)
      let v1 := (v.set c ((v.getD c []) ++ [dim_num])).set d ((v.getD d []) ++ [dim_num])
      let order1 := order ++ [dim_num]
      link_loop c restRev L1 v1 order1 (ev ++ [.expandC, .expandC])

/-- The inner-loop fuel used by `connect_graph`; proved sufficient for the
BFS below. -/
def bfs_fuel (L : List Tensor) (v : List (List Label)) : Nat :=
  (L.length + v.length + 2) * (L.length + v.length + 2)

/-- `ccomponents` from the source: the list of connected components of the
tensor graph, computed by the BFS. -/
def ccomponents (L : List Tensor) (v : List (List Label)) : List (List Nat) :=
  bfs_components v (bfs_fuel L v) L.length (List.range L.length) [] []

/-- `connect_graph(L, v, order)`: find the connected components of the
tensor graph and link them with fresh trivial indices.  The Python version
mutates in place and raises `IndexError` on an empty network
(`ccomponents.pop()` on an empty list); here the new triple is returned,
together with the backend-call events.  Out-of-range leg-list reads are
modelled as `[]`; the theorems below only concern states with
`L.length = v.length`, where this matches the source. -/
def connect_graph (L : List Tensor) (v : List (List Label)) (order : List Label) :
    Except NconError (List Tensor × List (List Label) × List Label × List BCall) :=
  match (ccomponents L v).getLast? with
  | none => .error .emptyNetwork
  | some lastComp =>
    match lastComp with
    | [] => .error .emptyNetwork
    | c :: _ => .ok (link_loop c (ccomponents L v).dropLast.reverse L v order [])

/-! ## The scheduler loop -/

/-- `sorted(tcon, reverse=True)`. -/
def sort_desc (l : List Nat) : List Nat := l.insertionSort (· ≥ ·)

/-- `for i in sorted(tcon, reverse=True): del L[i]; del v[i]`. -/
def delete_idxs : List Tensor → List (List Label) → List Nat →
    List Tensor × List (List Label)
  | L, v, [] => (L, v)
  | L, v, i :: rest => delete_idxs (L.eraseIdx i) (v.eraseIdx i) rest

/-- One iteration of the `while len(order) > 0:` loop of `ncon`, for the
head index `e = order[0]`: locate the participants, contract (trace or
pairwise), append the new tensor and leg list, delete the consumed ones.
Returns the new network state, the contracted label set `icon`, and the
backend call performed. -/
def ncon_step (L : List Tensor) (v : List (List Label)) (e : Label) :
    Except NconError (List Tensor × List (List Label) × List Label × BCall) :=
  match get_tcon v e with
  | .error err => .error err
  | .ok tcon =>
    let tracing := tcon.length = 1
    let icon := if tracing then [e] else get_icon v tcon
    let (pos1, pos2) := get_pos v tcon icon
    let newA :=
      if tracing then trace (L.getD (tcon.getD 0 0) default) (pos1.getD 0 0) (pos1.getD 1 0)
      else con (L.getD (tcon.getD 0 0) default) (L.getD (tcon.getD 1 0) default) pos1 pos2
    let L1 := L ++ [newA]
    let v1 := v ++ [find_newv v tcon icon]
    let (L2, v2) := delete_idxs L1 v1 (sort_desc tcon)
    .ok (L2, v2, icon, if tracing then .traceC else .conC)

/-- The `while len(order) > 0:` loop, fuel-indexed.  `ncon` runs it with
fuel `order.length`, which the termination theorem below proves
sufficient (a successful step always removes `order[0]` from the order). -/
def ncon_loop : Nat → List Tensor → List (List Label) → List Label →
    Except NconError (List Tensor × List (List Label) × List BCall)
  | _, L, v, [] => .ok (L, v, [])
  | 0, _, _, _ :: _ => .error .outOfFuel
  | fuel + 1, L, v, e :: rest =>
    match ncon_step L v e with
    | .error err => .error err
    | .ok (L2, v2, icon, bc) =>
      match ncon_loop fuel L2 v2 (renew_order (e :: rest) icon) with
      | .error err => .error err
      | .ok (L3, v3, evs) => .ok (L3, v3, bc :: evs)

/-- The phases of `ncon` after validation: connectivity repair, the
contraction loop, and the final permutation. -/
def ncon_main (L : List Tensor) (v : List (List Label)) (order forder : List Label) :
    Except NconError Tensor × List BCall :=
  match connect_graph L v order with
  | .error err => (.error err, [])
  | .ok (L1, v1, order1, ev1) =>
    match ncon_loop order1.length L1 v1 order1 with
    | .error err => (.error err, ev1)
    | .ok (L2, v2, ev2) =>
      let vlast := v2.getD 0 []
      let A := L2.getD 0 default
      match permute_final A vlast forder with
      | .error err => (.error err, ev1 ++ ev2)
      | .ok B => (.ok B, ev1 ++ ev2 ++ [.permC])

/-- The public entry point `ncon`, post argument-shape normalization (the
tensor/leg collections are already lists here; the convenience coercions
are out of scope per spec §1).  Returns the result together with the list
of backend invocations performed. -/
def ncon (L : List Tensor) (v : List (List Label))
    (order? forder? : Option (List Label)) (check : Bool) :
    Except NconError Tensor × List BCall :=
  match preprocess_forder_order order? v .order with
  | .error err => (.error err, [])
  | .ok order =>
    match preprocess_forder_order forder? v .forder with
    | .error err => (.error err, [])
    | .ok forder =>
      if check then
        match do_check_indices L v order forder with
        | .error err => (.error err, [])
        | .ok _ => ncon_main L v order forder
      else ncon_main L v order forder

/-! ## Shared list lemmas -/

lemma getD_mem_of_lt {α : Type _} (l : List α) (i : Nat) (d : α) (h : i < l.length) :
    l.getD i d ∈ l := by
  rw [List.getD_eq_getElem l d h]
  exact List.getElem_mem h

lemma perm_getD_cons_eraseIdx {α : Type _} (d : α) :
    ∀ (l : List α) (i : Nat), i < l.length → l.Perm (l.getD i d :: l.eraseIdx i)
  | [], i, h => absurd h (by simp)
  | x :: xs, 0, _ => by simp
  | x :: xs, i + 1, h => by
    have ih := perm_getD_cons_eraseIdx d xs i (by simpa using h)
    have h1 : (x :: xs).Perm (x :: (xs.getD i d :: xs.eraseIdx i)) := ih.cons x
    have h2 := List.Perm.swap (xs.getD i d) x (xs.eraseIdx i)
    simpa using h1.trans h2

lemma countP_eq_length_filter_range {α : Type _} (d : α) (p : α → Bool) :
    ∀ v : List α,
      v.countP p = ((List.range v.length).filter (fun i => p (v.getD i d))).length := by
  intro v
  induction v with
  | nil => simp
  | cons x xs ih =>
    rw [List.length_cons, List.range_succ_eq_map, List.filter_cons]
    have hfun : ((fun i => p ((x :: xs).getD i d)) ∘ Nat.succ)
        = fun i => p (xs.getD i d) := by
      funext i
      simp [List.getD_cons_succ]
    rw [List.filter_map, hfun, List.countP_cons, ih]
    by_cases hp : p x
    · simp [List.getD_cons_zero, hp]
    · simp [List.getD_cons_zero, hp]

lemma two_le_countP_of_two_pos {α : Type _} (d : α) (p : α → Bool) :
    ∀ (l : List α) (i j : Nat), i < j → j < l.length →
      p (l.getD i d) = true → p (l.getD j d) = true → 2 ≤ l.countP p
  | [], _, _, _, hj, _, _ => absurd hj (by simp)
  | x :: xs, 0, j + 1, _, hj, hi, hjp => by
    simp only [List.getD_cons_zero] at hi
    simp only [List.getD_cons_succ] at hjp
    have hmem : xs.getD j d ∈ xs := getD_mem_of_lt xs j d (by simpa using hj)
    have h1 : 0 < xs.countP p := List.countP_pos_iff.mpr ⟨_, hmem, hjp⟩
    rw [List.countP_cons]
    have h2 : (if p x = true then 1 else 0) = 1 := by rw [hi]; simp
    omega
  | x :: xs, i + 1, j + 1, hij, hj, hi, hjp => by
    have ih := two_le_countP_of_two_pos d p xs i j (by omega) (by simpa using hj)
      (by simpa using hi) (by simpa using hjp)
    rw [List.countP_cons]; omega

lemma getD_eraseIdx_lt {α : Type _} (d : α) :
    ∀ (l : List α) (k j : Nat), j < k → (l.eraseIdx k).getD j d = l.getD j d
  | [], _, _, _ => by simp
  | x :: xs, k + 1, 0, _ => by simp
  | x :: xs, k + 1, j + 1, h => by
    have ih := getD_eraseIdx_lt d xs k j (by omega)
    simpa using ih

lemma getD_eraseIdx_ge {α : Type _} (d : α) :
    ∀ (l : List α) (k j : Nat), k < l.length → k ≤ j →
      (l.eraseIdx k).getD j d = l.getD (j + 1) d
  | [], _, _, h, _ => by simp at h
  | x :: xs, 0, j, _, _ => by simp
  | x :: xs, k + 1, j + 1, hk, hj => by
    have ih := getD_eraseIdx_ge d xs k j (by simpa using hk) (by omega)
    simpa using ih

lemma getD_set_self {α : Type _} (d : α) (l : List α) (i : Nat) (a : α)
    (h : i < l.length) : (l.set i a).getD i d = a := by
  rw [List.getD_eq_getElem _ _ (by simpa using h), List.getElem_set]
  simp

lemma getD_set_ne {α : Type _} (d : α) (l : List α) (i j : Nat) (a : α)
    (h : i ≠ j) : (l.set i a).getD j d = l.getD j d := by
  by_cases hj : j < l.length
  · rw [List.getD_eq_getElem _ _ (by simpa using hj), List.getElem_set,
      List.getD_eq_getElem _ _ hj, if_neg h]
  · rw [List.getD_eq_default _ _ (by simpa using hj),
      List.getD_eq_default _ _ (by omega)]

lemma mem_positions_of (e : Label) :
    ∀ (xs : List Label) (j k : Nat),
      (k ∈ positions_of e j xs ↔
        j ≤ k ∧ k - j < xs.length ∧ xs.getD (k - j) (.int 0) = e)
  | [], j, k => by simp [positions_of]
  | x :: xs, j, k => by
    have ih := mem_positions_of e xs (j + 1) k
    rw [positions_of]
    by_cases hx : x = e
    · rw [if_pos hx, List.mem_cons, ih]
      constructor
      · rintro (rfl | ⟨h1, h2, h3⟩)
        · exact ⟨le_refl _, by simp, by simpa⟩
        · refine ⟨by omega, ?_, ?_⟩
          · simp only [List.length_cons]
            omega
          · have : k - j = (k - (j + 1)) + 1 := by omega
            rw [this, List.getD_cons_succ]
            exact h3
      · rintro ⟨h1, h2, h3⟩
        by_cases hk : k = j
        · exact .inl hk
        · right
          refine ⟨by omega, ?_, ?_⟩
          · simp only [List.length_cons] at h2
            omega
          · have : k - j = (k - (j + 1)) + 1 := by omega
            rw [this, List.getD_cons_succ] at h3
            exact h3
    · rw [if_neg hx, ih]
      constructor
      · rintro ⟨h1, h2, h3⟩
        refine ⟨by omega, ?_, ?_⟩
        · simp only [List.length_cons]
          omega
        · have : k - j = (k - (j + 1)) + 1 := by omega
          rw [this, List.getD_cons_succ]
          exact h3
      · rintro ⟨h1, h2, h3⟩
        have hkj : k ≠ j := by
          rintro rfl
          rw [Nat.sub_self, List.getD_cons_zero] at h3
          exact hx h3
        refine ⟨by omega, ?_, ?_⟩
        · simp only [List.length_cons] at h2
          omega
        · have : k - j = (k - (j + 1)) + 1 := by omega
          rw [this, List.getD_cons_succ] at h3
          exact h3

lemma length_positions_of (e : Label) :
    ∀ (xs : List Label) (j : Nat), (positions_of e j xs).length = xs.count e
  | [], _ => by simp [positions_of]
  | x :: xs, j => by
    have ih := length_positions_of e xs (j + 1)
    rw [positions_of, List.count_cons]
    by_cases hx : x = e
    · rw [if_pos hx, if_pos (by simpa using hx)]
      simp [ih]
    · rw [if_neg hx, if_neg (by simpa using hx)]
      simp [ih]

lemma sorted_positions_of (e : Label) :
    ∀ (xs : List Label) (j : Nat), (positions_of e j xs).Sorted (· < ·)
  | [], _ => by simp [positions_of]
  | x :: xs, j => by
    have ih := sorted_positions_of e xs (j + 1)
    rw [positions_of]
    by_cases hx : x = e
    · rw [if_pos hx, List.sorted_cons]
      refine ⟨fun b hb => ?_, ih⟩
      have := (mem_positions_of e xs (j + 1) b).mp hb
      omega
    · rw [if_neg hx]
      exact ih

lemma removeAxesFrom_length (icon : List Label) (P : List Nat) :
    ∀ (s : List Nat) (l : List Label) (j : Nat), s.length = l.length →
      (∀ k, j ≤ k → k < j + l.length →
        ((k ∈ P) ↔ (l.getD (k - j) (.int 0) ∈ icon))) →
      (removeAxesFrom P j s).length = (l.filter (fun x => x ∉ icon)).length
  | [], l, j, hlen, _ => by
    have : l = [] := List.length_eq_zero.mp (by simpa using hlen.symm)
    subst this
    simp [removeAxesFrom]
  | x :: s, l, j, hlen, hmem => by
    match l with
    | [] => simp at hlen
    | y :: l =>
      have hlen' : s.length = l.length := by simpa using hlen
      have hmem' : ∀ k, j + 1 ≤ k → k < (j + 1) + l.length →
          ((k ∈ P) ↔ (l.getD (k - (j + 1)) (.int 0) ∈ icon)) := by
        intro k h1 h2
        have := hmem k (by omega) (by simp only [List.length_cons]; omega)
        have harith : k - j = (k - (j + 1)) + 1 := by omega
        rw [harith, List.getD_cons_succ] at this
        exact this
      have ih := removeAxesFrom_length icon P s l (j + 1) hlen' hmem'
      have hj : (j ∈ P) ↔ (y ∈ icon) := by
        have := hmem j (le_refl _) (by simp only [List.length_cons]; omega)
        rw [Nat.sub_self, List.getD_cons_zero] at this
        exact this
      rw [removeAxesFrom]
      by_cases hy : y ∈ icon
      · rw [if_pos (hj.mpr hy), ih, List.filter_cons]
        rw [if_neg (by simpa using hy)]
      · rw [if_neg (fun hjP => hy (hj.mp hjP)), List.filter_cons,
          if_pos (by simpa using hy)]
        simp [ih]

/-! ## C9: validation failures precede all backend calls -/

/-- **C9**: with `check_indices` enabled, a validator failure makes `ncon`
return that error with an empty backend-call trace: no pairwise
contraction, trace, permute or axis insertion is invoked.  (The validator
itself is a pure function returning only the check outcome, so the
embedding leaves `L`, `v`, `order`, `forder` untouched by construction.) -/
theorem validator_blocks_backend (L : List Tensor) (v : List (List Label))
    (order forder : List Label) (err : NconError)
    (h : do_check_indices L v order forder = .error err) :
    ncon L v (some order) (some forder) true = (.error err, []) := by
  have hn : ncon L v (some order) (some forder) true
      = (match do_check_indices L v order forder with
         | .error err => ((.error err : Except NconError Tensor), ([] : List BCall))
         | .ok _ => ncon_main L v order forder) := rfl
  rw [hn, h]

/-- Applies `validator_blocks_backend` at a concrete malformed input (a
rank-1 tensor given two leg labels). -/
theorem validator_blocks_backend_witness :
    ncon [⟨[2], false, fun _ _ _ => false⟩] [[.int 1, .int 2]]
      (some [.int 1, .int 2]) (some []) true
      = (.error (.rankMismatch 0), []) :=
  validator_blocks_backend _ _ _ _ (.rankMismatch 0) rfl

/-! ## C5: the new leg list after a contraction step -/

/-- **C5**: in the two-participant case `find_newv` returns the
concatenation of the two participants' leg lists with every `icon` label
removed (and the relative order of survivors preserved — it is a sublist
of the concatenation); in the trace case it is the single leg list with
the `icon` labels removed. -/
theorem find_newv_spec (v : List (List Label)) (t0 t1 : Nat) (icon : List Label) :
    find_newv v [t0, t1] icon
        = (v.getD t0 [] ++ v.getD t1 []).filter (fun e => e ∉ icon)
    ∧ find_newv v [t0] icon = (v.getD t0 []).filter (fun e => e ∉ icon)
    ∧ (find_newv v [t0, t1] icon).Sublist (v.getD t0 [] ++ v.getD t1 [])
    ∧ (find_newv v [t0] icon).Sublist (v.getD t0 [])
    ∧ (∀ e, e ∈ find_newv v [t0, t1] icon ↔
        (e ∈ v.getD t0 [] ∨ e ∈ v.getD t1 []) ∧ e ∉ icon) := by
  refine ⟨rfl, rfl, List.filter_sublist _, List.filter_sublist _, fun e => ?_⟩
  show e ∈ (v.getD t0 [] ++ v.getD t1 []).filter (fun e => e ∉ icon) ↔ _
  simp only [List.mem_filter, List.mem_append, decide_not, Bool.not_eq_true',
    decide_eq_false_iff_not]

/-! ## C7: the participant lookup `get_tcon` -/

/-- **C7**: `get_tcon` errors exactly when the index lies on zero or more
than two leg lists, or on exactly one leg list with a within-list
multiplicity other than two; otherwise it returns the (sorted) positions
of the leg lists containing the index. -/
theorem get_tcon_spec (v : List (List Label)) (index : Label) :
    ((∃ err, get_tcon v index = .error err) ↔
      (v.countP (fun l => index ∈ l) = 0
        ∨ 2 < v.countP (fun l => index ∈ l)
        ∨ (v.countP (fun l => index ∈ l) = 1 ∧
            ∃ i < v.length, index ∈ v.getD i [] ∧ (v.getD i []).count index ≠ 2)))
    ∧ (∀ tcon, get_tcon v index = .ok tcon →
        tcon.Sorted (· < ·) ∧ ∀ i, i ∈ tcon ↔ i < v.length ∧ index ∈ v.getD i []) := by
  classical
  have hget : get_tcon v index = (
      let t := (List.range v.length).filter (fun i => index ∈ v.getD i [])
      if t.length > 2 then .error .tconTooMany
      else if t.length < 1 then .error .tconTooFew
      else if t.length = 1 then
        if (v.getD (t.getD 0 0) []).count index ≠ 2 then .error .traceNotTwice
        else .ok t
      else .ok t) := rfl
  set t := (List.range v.length).filter (fun i => index ∈ v.getD i []) with ht
  have hlen : v.countP (fun l => index ∈ l) = t.length :=
    countP_eq_length_filter_range ([] : List Label) (fun l => decide (index ∈ l)) v
  have hmem : ∀ i, i ∈ t ↔ i < v.length ∧ index ∈ v.getD i [] := by
    intro i; rw [ht]; simp [List.mem_filter]
  have hsorted : t.Sorted (· < ·) := by
    rw [ht]
    exact List.Pairwise.sublist (List.filter_sublist _) (List.pairwise_lt_range _)
  rw [show (let t := (List.range v.length).filter (fun i => index ∈ v.getD i [])
      if t.length > 2 then (Except.error NconError.tconTooMany :
            Except NconError (List Nat))
      else if t.length < 1 then .error .tconTooFew
      else if t.length = 1 then
        if (v.getD (t.getD 0 0) []).count index ≠ 2 then .error .traceNotTwice
        else .ok t
      else .ok t) = (
      if t.length > 2 then .error .tconTooMany
      else if t.length < 1 then .error .tconTooFew
      else if t.length = 1 then
        if (v.getD (t.getD 0 0) []).count index ≠ 2 then .error .traceNotTwice
        else .ok t
      else .ok t) from rfl] at hget
  have hmem0 : 0 < t.length → t.getD 0 0 ∈ t := fun h0 => getD_mem_of_lt t 0 0 h0
  constructor
  · constructor
    · intro ⟨err, herr⟩
      rw [hget] at herr
      split_ifs at herr with h1 h2 h3 h4
      all_goals first
        | exact Except.noConfusion herr
        | (left; omega)
        | (right; left; omega)
        | (right; right
           have hm := hmem0 (by omega)
           exact ⟨by omega, t.getD 0 0, ((hmem _).mp hm).1, ((hmem _).mp hm).2,
             by assumption⟩)
    · intro h
      rw [hget]
      rcases h with h | h | ⟨h1, i, hi, himem, hcnt⟩
      · rw [hlen] at h
        exact ⟨.tconTooFew, by rw [if_neg (by omega), if_pos (by omega)]⟩
      · rw [hlen] at h
        exact ⟨.tconTooMany, by rw [if_pos (by omega)]⟩
      · rw [hlen] at h1
        have hit : i ∈ t := (hmem i).mpr ⟨hi, himem⟩
        obtain ⟨a, hta⟩ := List.length_eq_one.mp h1
        have hia : i = a := by
          rw [hta] at hit; simpa using hit
        refine ⟨.traceNotTwice, ?_⟩
        have hcnt' : List.count index (v.getD (t.getD 0 0) []) ≠ 2 := by
          rw [hta]
          simpa [← hia] using hcnt
        rw [if_neg (by omega), if_neg (by omega), if_pos h1, if_pos hcnt']
  · intro tcon htcon
    rw [hget] at htcon
    split_ifs at htcon with h1 h2 h3 h4
    all_goals first
      | exact Except.noConfusion htcon
      | (obtain rfl : t = tcon := Except.ok.inj htcon
         exact ⟨hsorted, hmem⟩)

/-! ## C8: the output arranger `permute_final` -/

lemma indexOf?_spec : ∀ (v : List Label) (e : Label),
    (v.indexOf? e = none ↔ e ∉ v) ∧
    (∀ j, v.indexOf? e = some j →
      j < v.length ∧ v.getD j (.int 0) = e ∧ ∀ j' < j, v.getD j' (.int 0) ≠ e)
  | [], e => by simp [List.indexOf?]
  | x :: xs, e => by
    have ih := indexOf?_spec xs e
    rw [List.indexOf?_cons]
    by_cases hx : x = e
    · subst hx
      simp only [beq_self_eq_true, if_pos]
      constructor
      · simp
      · intro j hj
        cases hj
        exact ⟨by simp, by simp, by omega⟩
    · have hbeq : (x == e) = false := beq_eq_false_iff_ne.mpr hx
      rw [hbeq]
      simp only [Bool.false_eq_true, if_neg, not_false_iff]
      constructor
      · rw [Option.map_eq_none', ih.1]
        simp [hx, List.mem_cons]
        tauto
      · intro j hj
        rw [Option.map_eq_some'] at hj
        obtain ⟨j₀, hj₀, rfl⟩ := hj
        obtain ⟨hlt, hget, hfirst⟩ := ih.2 j₀ hj₀
        refine ⟨by simpa using Nat.succ_lt_succ hlt, by simpa using hget, ?_⟩
        intro j' hj'
        cases j' with
        | zero => simpa using hx
        | succ k =>
          rw [List.getD_cons_succ]
          exact hfirst k (by omega)

lemma build_perm_spec : ∀ (v forder : List Label),
    ((∀ e ∈ forder, e ∈ v) → ∃ perm, build_perm v forder = .ok perm ∧
        perm.length = forder.length ∧
        ∀ k < forder.length,
          perm.getD k 0 < v.length
          ∧ v.getD (perm.getD k 0) (.int 0) = forder.getD k (.int 0)
          ∧ ∀ j < perm.getD k 0, v.getD j (.int 0) ≠ forder.getD k (.int 0)) ∧
    ((∃ e ∈ forder, e ∉ v) → ∃ err, build_perm v forder = .error err)
  | v, [] => by
    constructor
    · intro _
      exact ⟨[], rfl, rfl, fun k hk => absurd hk (by simp)⟩
    · rintro ⟨e, he, _⟩
      exact absurd he (by simp)
  | v, e :: rest => by
    have ih := build_perm_spec v rest
    constructor
    · intro hall
      have he : e ∈ v := hall e (by simp)
      rcases hj : v.indexOf? e with _ | j
      · exact absurd ((indexOf?_spec v e).1.mp hj) (by simp [he])
      obtain ⟨hjlt, hjget, hjfirst⟩ := (indexOf?_spec v e).2 j hj
      obtain ⟨perm', hperm', hlen', hprop'⟩ :=
        ih.1 (fun e' he' => hall e' (by simp [he']))
      refine ⟨j :: perm', ?_, by simp [hlen'], ?_⟩
      · show build_perm v (e :: rest) = _
        rw [build_perm, hj, hperm']
        rfl
      · intro k hk
        cases k with
        | zero =>
          simp only [List.getD_cons_zero]
          exact ⟨hjlt, hjget, hjfirst⟩
        | succ k₀ =>
          simp only [List.getD_cons_succ]
          exact hprop' k₀ (by simpa using hk)
    · rintro ⟨e', he', hnot⟩
      rcases List.mem_cons.mp he' with rfl | hmem
      · have : v.indexOf? e' = none := (indexOf?_spec v e').1.mpr hnot
        exact ⟨.forderMissing e', by rw [build_perm, this]⟩
      · obtain ⟨err, herr⟩ := ih.2 ⟨e', hmem, hnot⟩
        rcases hj : v.indexOf? e with _ | j
        · exact ⟨.forderMissing e, by rw [build_perm, hj]⟩
        · refine ⟨err, ?_⟩
          rw [build_perm, hj, herr]
          rfl

/-- **C8**: `permute_final` calls the backend `permute` with the
permutation whose `k`-th entry is the position of the first occurrence of
`forder[k]` in the final leg list `v`, and errors (index not found)
whenever some label of `forder` is absent from `v`. -/
theorem permute_final_spec (A : Tensor) (v forder : List Label) :
    ((∀ e ∈ forder, e ∈ v) → ∃ perm,
        permute_final A v forder = .ok (permute A perm)
        ∧ perm.length = forder.length
        ∧ ∀ k, k < forder.length →
            perm.getD k 0 < v.length
            ∧ v.getD (perm.getD k 0) (.int 0) = forder.getD k (.int 0)
            ∧ ∀ j < perm.getD k 0, v.getD j (.int 0) ≠ forder.getD k (.int 0))
    ∧ ((∃ e ∈ forder, e ∉ v) → ∃ err, permute_final A v forder = .error err) := by
  constructor
  · intro hall
    obtain ⟨perm, hperm, hlen, hprop⟩ := (build_perm_spec v forder).1 hall
    refine ⟨perm, ?_, hlen, hprop⟩
    rw [permute_final, hperm]
    rfl
  · intro hex
    obtain ⟨err, herr⟩ := (build_perm_spec v forder).2 hex
    refine ⟨err, ?_⟩
    rw [permute_final, herr]
    rfl

/-- Applies `permute_final_spec` at a concrete input, discharging its
hypotheses: legs `[-2, -1]`, requested order `[-1, -2]`. -/
theorem permute_final_spec_witness :
    ∃ perm,
      permute_final ⟨[2, 3], false, fun _ _ _ => false⟩
          [Label.int (-2), Label.int (-1)] [Label.int (-1), Label.int (-2)]
        = .ok (permute ⟨[2, 3], false, fun _ _ _ => false⟩ perm)
      ∧ perm.length = 2
      ∧ ∀ k, k < 2 →
          perm.getD k 0 < 2
          ∧ ([Label.int (-2), Label.int (-1)].getD (perm.getD k 0) (.int 0)
              = [Label.int (-1), Label.int (-2)].getD k (.int 0))
          ∧ ∀ j < perm.getD k 0,
              [Label.int (-2), Label.int (-1)].getD j (.int 0)
                ≠ [Label.int (-1), Label.int (-2)].getD k (.int 0) := by
  have h := (permute_final_spec ⟨[2, 3], false, fun _ _ _ => false⟩
    [Label.int (-2), Label.int (-1)] [Label.int (-1), Label.int (-2)]).1
    (by decide)
  simpa using h

/-! ## C1: the validator's acceptance condition -/

lemma checkRanks_ok_iff : ∀ (k : Nat) (ps : List (List Label × List Nat)),
    (checkRanks k ps = .ok () ↔
      ∀ j < ps.length, (ps.getD j ([], [])).1.length = (ps.getD j ([], [])).2.length)
  | _, [] => by simp [checkRanks]
  | k, (inds, s) :: rest => by
    have ih := checkRanks_ok_iff (k + 1) rest
    rw [checkRanks]
    by_cases h : inds.length = s.length
    · rw [if_neg (by simpa using h), ih]
      constructor
      · intro hall j hj
        cases j with
        | zero => simpa using h
        | succ j₀ => exact hall j₀ (by simpa using hj)
      · intro hall j hj
        have := hall (j + 1) (by simpa using hj)
        simpa using this
    · rw [if_pos (by simpa using h)]
      constructor
      · intro habs
        exact absurd habs (by simp)
      · intro hall
        exact absurd (by simpa using hall 0 (by simp)) h

lemma checkRanks_zip_ok_iff (L : List Tensor) (v : List (List Label))
    (hlen : L.length = v.length) :
    (checkRanks 0 (v.zip (L.map Tensor.shape)) = .ok () ↔
      ∀ i < v.length, (v.getD i []).length = (L.getD i default).shape.length) := by
  rw [checkRanks_ok_iff]
  have hzlen : (v.zip (L.map Tensor.shape)).length = v.length := by
    simp [List.length_zip, hlen]
  constructor
  · intro hall i hi
    have hi' : i < (v.zip (L.map Tensor.shape)).length := by omega
    have h := hall i hi'
    have hv : i < v.length := hi
    have hL : i < L.length := by omega
    have hzip : (v.zip (L.map Tensor.shape)).getD i ([], [])
        = (v.getD i [], (L.getD i default).shape) := by
      rw [List.getD_eq_getElem _ _ hi', List.getElem_zip]
      rw [List.getD_eq_getElem _ _ hv, List.getD_eq_getElem _ _ hL]
      simp
    rw [hzip] at h
    exact h
  · intro hall j hj
    have hv : j < v.length := by omega
    have hL : j < L.length := by omega
    have hzip : (v.zip (L.map Tensor.shape)).getD j ([], [])
        = (v.getD j [], (L.getD j default).shape) := by
      rw [List.getD_eq_getElem _ _ hj, List.getElem_zip]
      rw [List.getD_eq_getElem _ _ hv, List.getD_eq_getElem _ _ hL]
      simp
    rw [hzip]
    exact hall j hv

lemma check_order_groups_ok_iff (L : List Tensor) (v : List (List Label)) :
    ∀ order : List Label,
    (check_order_groups L v order = .ok () ↔
      ∀ e ∈ order, ∃ A0 i0 A1 i1, order_group v e = [(A0, i0), (A1, i1)]
        ∧ compat_check L A0 i0 A1 i1 = true)
  | [] => by simp [check_order_groups]
  | e :: rest => by
    have ih := check_order_groups_ok_iff L v rest
    rcases hg : order_group v e with _ | ⟨⟨A0, i0⟩, _ | ⟨⟨A1, i1⟩, _ | ⟨p, tl⟩⟩⟩
    · rw [show check_order_groups L v (e :: rest) = .error (.notTwice e) by
        rw [check_order_groups, hg]]
      constructor
      · intro habs
        exact absurd habs (by simp)
      · intro hall
        obtain ⟨A0, i0, A1, i1, hgrp, _⟩ := hall e (by simp)
        rw [hg] at hgrp
        cases hgrp
    · rw [show check_order_groups L v (e :: rest) = .error (.notTwice e) by
        rw [check_order_groups, hg]]
      constructor
      · intro habs
        exact absurd habs (by simp)
      · intro hall
        obtain ⟨A0', i0', A1', i1', hgrp, _⟩ := hall e (by simp)
        rw [hg] at hgrp
        cases hgrp
    · have hsplit : check_order_groups L v (e :: rest)
          = (if compat_check L A0 i0 A1 i1 = true then check_order_groups L v rest
             else .error (.notCompatible e)) := by
        rw [check_order_groups, hg]
      by_cases hc : compat_check L A0 i0 A1 i1 = true
      · rw [hsplit, if_pos hc, ih]
        constructor
        · intro hall e' he'
          rcases List.mem_cons.mp he' with rfl | hmem
          · exact ⟨A0, i0, A1, i1, hg, hc⟩
          · exact hall e' hmem
        · intro hall e' he'
          exact hall e' (by simp [he'])
      · rw [hsplit, if_neg hc]
        constructor
        · intro habs
          exact absurd habs (by simp)
        · intro hall
          obtain ⟨A0', i0', A1', i1', hgrp, hcomp⟩ := hall e (by simp)
          rw [hg] at hgrp
          injection hgrp with h1 h2
          injection h2 with h2 h3
          cases h1
          cases h2
          simp at h3
          cases h3
          exact absurd hcomp hc
    · rw [show check_order_groups L v (e :: rest) = .error (.notTwice e) by
        rw [check_order_groups, hg]]
      constructor
      · intro habs
        exact absurd habs (by simp)
      · intro hall
        obtain ⟨A0', i0', A1', i1', hgrp, _⟩ := hall e (by simp)
        rw [hg] at hgrp
        injection hgrp with h1 h2
        injection h2 with h2 h3
        cases h3

lemma check_forder_groups_ok_iff (v : List (List Label)) :
    ∀ forder : List Label,
    (check_forder_groups v forder = .ok () ↔ ∀ e ∈ forder, v.flatten.count e = 1)
  | [] => by simp [check_forder_groups]
  | e :: rest => by
    have ih := check_forder_groups_ok_iff v rest
    rw [check_forder_groups]
    by_cases h : v.flatten.count e = 1
    · rw [if_pos h, ih]
      constructor
      · intro hall e' he'
        rcases List.mem_cons.mp he' with rfl | hmem
        · exact h
        · exact hall e' hmem
      · intro hall e' he'
        exact hall e' (by simp [he'])
    · rw [if_neg h]
      constructor
      · intro habs
        exact absurd habs (by simp)
      · intro hall
        exact absurd (hall e (by simp)) h

/-! Row-major leg enumeration: lengths and membership. -/

lemma leg_row_filter_length (e : Label) : ∀ (i j : Nat) (xs : List Label),
    ((leg_row i j xs).filterMap
        (fun t => if t.2 = e then some t.1 else none)).length = xs.count e
  | _, _, [] => by simp [leg_row]
  | i, j, x :: xs => by
    have ih := leg_row_filter_length e i (j + 1) xs
    rw [leg_row, List.filterMap_cons, List.count_cons]
    by_cases hx : x = e
    · rw [if_pos (by simpa using hx)]
      simp [ih, hx]
    · rw [if_neg (by simpa using hx)]
      simp [ih, hx]

lemma leg_positions_filter_length (e : Label) : ∀ (i : Nat) (v : List (List Label)),
    ((leg_positions i v).filterMap
        (fun t => if t.2 = e then some t.1 else none)).length = v.flatten.count e
  | _, [] => by simp [leg_positions]
  | i, inds :: rest => by
    have ih := leg_positions_filter_length e (i + 1) rest
    rw [leg_positions, List.filterMap_append, List.length_append,
      List.flatten_cons, List.count_append, leg_row_filter_length, ih]

lemma order_group_length (v : List (List Label)) (e : Label) :
    (order_group v e).length = v.flatten.count e :=
  leg_positions_filter_length e 0 v

lemma mem_leg_row : ∀ (xs : List Label) (i j : Nat) (q : (Nat × Nat) × Label),
    (q ∈ leg_row i j xs ↔
      ∃ k < xs.length, q = ((i, j + k), xs.getD k (.int 0)))
  | [], _, _, _ => by simp [leg_row]
  | x :: xs, i, j, q => by
    have ih := mem_leg_row xs i (j + 1) q
    rw [leg_row, List.mem_cons, ih]
    constructor
    · rintro (rfl | ⟨k, hk, rfl⟩)
      · exact ⟨0, by simp, by simp⟩
      · exact ⟨k + 1, by simpa using hk, by simp; omega⟩
    · rintro ⟨k, hk, rfl⟩
      cases k with
      | zero => left; simp
      | succ k₀ =>
        right
        refine ⟨k₀, by simpa using hk, ?_⟩
        simp
        omega

lemma mem_leg_positions : ∀ (v : List (List Label)) (i : Nat) (q : (Nat × Nat) × Label),
    (q ∈ leg_positions i v ↔
      ∃ m < v.length, q ∈ leg_row (i + m) 0 (v.getD m []))
  | [], _, _ => by simp [leg_positions]
  | inds :: rest, i, q => by
    have ih := mem_leg_positions rest (i + 1) q
    rw [leg_positions, List.mem_append, ih]
    constructor
    · rintro (h | ⟨m, hm, hq⟩)
      · exact ⟨0, by simp, by simpa using h⟩
      · refine ⟨m + 1, by simpa using hm, ?_⟩
        have : i + 1 + m = i + (m + 1) := by omega
        rw [← this]
        simpa using hq
    · rintro ⟨m, hm, hq⟩
      cases m with
      | zero => left; simpa using hq
      | succ m₀ =>
        right
        refine ⟨m₀, by simpa using hm, ?_⟩
        have : i + 1 + m₀ = i + (m₀ + 1) := by omega
        rw [this]
        simpa using hq

lemma order_group_mem (v : List (List Label)) (e : Label) :
    ∀ p ∈ order_group v e,
      p.1 < v.length ∧ p.2 < (v.getD p.1 []).length
        ∧ (v.getD p.1 []).getD p.2 (.int 0) = e := by
  intro p hp
  rw [order_group, List.mem_filterMap] at hp
  obtain ⟨t, ht, hft⟩ := hp
  by_cases hte : t.2 = e
  · rw [if_pos hte] at hft
    cases hft
    rw [mem_leg_positions] at ht
    obtain ⟨m, hm, hrow⟩ := ht
    rw [mem_leg_row] at hrow
    obtain ⟨k, hk, hq⟩ := hrow
    have hqq : t = ((m, k), (v.getD m []).getD k (.int 0)) := by simpa using hq
    have h1 : t.1.1 = m := by rw [hqq]
    have h2 : t.1.2 = k := by rw [hqq]
    have h3 : t.2 = (v.getD m []).getD k (.int 0) := by rw [hqq]
    rw [h1, h2]
    exact ⟨hm, hk, by rw [← h3, hte]⟩
  · rw [if_neg hte] at hft
    cases hft

/-- **C1**: the validator errors iff the tensor/leg-list counts mismatch,
some leg list disagrees with its tensor's rank, some `order` index does not
occur exactly twice across the leg lists, the two legs carrying an `order`
index are incompatible (custom predicate when exposed, else size equality),
or some `forder` index does not occur exactly once; otherwise it returns
`True`.  The last two conjuncts pin down `order_group`: its length is the
occurrence count of the label and its entries are exactly the legs carrying
the label. -/
theorem do_check_indices_spec (L : List Tensor) (v : List (List Label))
    (order forder : List Label) :
    ((∃ err, do_check_indices L v order forder = .error err) ↔
      (L.length ≠ v.length
        ∨ (∃ i < v.length, (v.getD i []).length ≠ (L.getD i default).shape.length)
        ∨ (∃ e ∈ order, v.flatten.count e ≠ 2)
        ∨ (∃ e ∈ order, ∃ A0 i0 A1 i1,
            order_group v e = [(A0, i0), (A1, i1)]
            ∧ compat_check L A0 i0 A1 i1 = false)
        ∨ (∃ e ∈ forder, v.flatten.count e ≠ 1)))
    ∧ (¬ (L.length ≠ v.length
        ∨ (∃ i < v.length, (v.getD i []).length ≠ (L.getD i default).shape.length)
        ∨ (∃ e ∈ order, v.flatten.count e ≠ 2)
        ∨ (∃ e ∈ order, ∃ A0 i0 A1 i1,
            order_group v e = [(A0, i0), (A1, i1)]
            ∧ compat_check L A0 i0 A1 i1 = false)
        ∨ (∃ e ∈ forder, v.flatten.count e ≠ 1))
      → do_check_indices L v order forder = .ok true)
    ∧ (∀ e, (order_group v e).length = v.flatten.count e)
    ∧ (∀ e, ∀ p ∈ order_group v e,
        p.1 < v.length ∧ p.2 < (v.getD p.1 []).length
          ∧ (v.getD p.1 []).getD p.2 (.int 0) = e) := by
  classical
  have hgood : do_check_indices L v order forder = .ok true ↔
      (L.length = v.length
        ∧ (∀ i < v.length, (v.getD i []).length = (L.getD i default).shape.length)
        ∧ (∀ e ∈ order, ∃ A0 i0 A1 i1,
            order_group v e = [(A0, i0), (A1, i1)]
            ∧ compat_check L A0 i0 A1 i1 = true)
        ∧ (∀ e ∈ forder, v.flatten.count e = 1)) := by
    by_cases hL : L.length = v.length
    · rw [do_check_indices, if_neg (by omega)]
      rcases hr : checkRanks 0 (v.zip (L.map Tensor.shape)) with e1 | u
      · constructor
        · intro habs
          exact absurd habs (by simp)
        · rintro ⟨_, hranks, _, _⟩
          have : checkRanks 0 (v.zip (L.map Tensor.shape)) = .ok () :=
            (checkRanks_zip_ok_iff L v hL).mpr hranks
          rw [hr] at this
          cases this
      · rcases ho : check_order_groups L v order with e2 | u2
        · constructor
          · intro habs
            exact absurd habs (by simp)
          · rintro ⟨_, _, horder, _⟩
            have : check_order_groups L v order = .ok () :=
              (check_order_groups_ok_iff L v order).mpr horder
            rw [ho] at this
            cases this
        · rcases hf : check_forder_groups v forder with e3 | u3
          · constructor
            · intro habs
              exact absurd habs (by simp)
            · rintro ⟨_, _, _, hforder⟩
              have : check_forder_groups v forder = .ok () :=
                (check_forder_groups_ok_iff v forder).mpr hforder
              rw [hf] at this
              cases this
          · constructor
            · intro _
              refine ⟨hL, ?_, ?_, ?_⟩
              · exact (checkRanks_zip_ok_iff L v hL).mp (by rw [hr])
              · exact (check_order_groups_ok_iff L v order).mp (by rw [ho])
              · exact (check_forder_groups_ok_iff v forder).mp (by rw [hf])
            · intro _
              rfl
    · rw [do_check_indices, if_pos (by omega)]
      constructor
      · intro habs
        exact absurd habs (by simp)
      · rintro ⟨h, _⟩
        exact absurd h hL
  have hcases : (∃ err, do_check_indices L v order forder = .error err)
      ∨ do_check_indices L v order forder = .ok true := by
    rw [do_check_indices]
    by_cases hL : L.length = v.length
    · rw [if_neg (by omega)]
      rcases hr : checkRanks 0 (v.zip (L.map Tensor.shape)) with e1 | u
      · exact .inl ⟨e1, rfl⟩
      · rcases ho : check_order_groups L v order with e2 | u2
        · exact .inl ⟨e2, rfl⟩
        · rcases hf : check_forder_groups v forder with e3 | u3
          · exact .inl ⟨e3, rfl⟩
          · exact .inr rfl
    · rw [if_pos (by omega)]
      exact .inl ⟨.numMismatch, rfl⟩
  have hnotgroup : ∀ e,
      ((¬ ∃ A0 i0 A1 i1, order_group v e = [(A0, i0), (A1, i1)]
          ∧ compat_check L A0 i0 A1 i1 = true) ↔
        (v.flatten.count e ≠ 2
          ∨ ∃ A0 i0 A1 i1, order_group v e = [(A0, i0), (A1, i1)]
              ∧ compat_check L A0 i0 A1 i1 = false)) := by
    intro e
    have hcnt := order_group_length v e
    rcases hg : order_group v e with _ | ⟨⟨A0, i0⟩, _ | ⟨⟨A1, i1⟩, _ | ⟨p, tl⟩⟩⟩
    · constructor
      · intro _
        left
        rw [← hcnt, hg]
        simp
      · rintro _ ⟨A0, i0, A1, i1, hgrp, _⟩
        cases hgrp
    · constructor
      · intro _
        left
        rw [← hcnt, hg]
        simp
      · rintro _ ⟨A0', i0', A1', i1', hgrp, _⟩
        cases hgrp
    · constructor
      · intro hne
        right
        refine ⟨A0, i0, A1, i1, rfl, ?_⟩
        by_contra hcf
        have hct : compat_check L A0 i0 A1 i1 = true := by
          cases hcc : compat_check L A0 i0 A1 i1
          · exact absurd hcc hcf
          · rfl
        exact hne ⟨A0, i0, A1, i1, rfl, hct⟩
      · rintro (hc2 | ⟨A0', i0', A1', i1', hgrp, hfalse⟩) ⟨B0, j0, B1, j1, hgrp', htrue⟩
        · exact hc2 (by rw [← hcnt, hg]; rfl)
        · injection hgrp with ha hb
          injection hb with hb hc
          injection hgrp' with ha' hb'
          injection hb' with hb' hc'
          simp only [Prod.mk.injEq] at ha hb ha' hb'
          obtain ⟨rfl, rfl⟩ := ha
          obtain ⟨rfl, rfl⟩ := hb
          obtain ⟨rfl, rfl⟩ := ha'
          obtain ⟨rfl, rfl⟩ := hb'
          rw [htrue] at hfalse
          cases hfalse
    · constructor
      · intro _
        left
        rw [← hcnt, hg, List.length_cons, List.length_cons, List.length_cons]
        omega
      · rintro _ ⟨A0', i0', A1', i1', hgrp, _⟩
        injection hgrp with ha hb
        injection hb with hb hc
        cases hc
  have hiff : (¬ (L.length = v.length
        ∧ (∀ i < v.length, (v.getD i []).length = (L.getD i default).shape.length)
        ∧ (∀ e ∈ order, ∃ A0 i0 A1 i1,
            order_group v e = [(A0, i0), (A1, i1)]
            ∧ compat_check L A0 i0 A1 i1 = true)
        ∧ (∀ e ∈ forder, v.flatten.count e = 1))) ↔
      (L.length ≠ v.length
        ∨ (∃ i < v.length, (v.getD i []).length ≠ (L.getD i default).shape.length)
        ∨ (∃ e ∈ order, v.flatten.count e ≠ 2)
        ∨ (∃ e ∈ order, ∃ A0 i0 A1 i1,
            order_group v e = [(A0, i0), (A1, i1)]
            ∧ compat_check L A0 i0 A1 i1 = false)
        ∨ (∃ e ∈ forder, v.flatten.count e ≠ 1)) := by
    constructor
    · intro h
      by_cases hA : L.length = v.length
      case neg => exact .inl hA
      by_cases hB : ∀ i < v.length, (v.getD i []).length = (L.getD i default).shape.length
      case neg =>
        push_neg at hB
        exact .inr (.inl hB)
      by_cases hC : ∀ e ∈ order, ∃ A0 i0 A1 i1,
          order_group v e = [(A0, i0), (A1, i1)] ∧ compat_check L A0 i0 A1 i1 = true
      case neg =>
        push_neg at hC
        obtain ⟨e, he, hne⟩ := hC
        have hne' : ¬ ∃ A0 i0 A1 i1, order_group v e = [(A0, i0), (A1, i1)]
            ∧ compat_check L A0 i0 A1 i1 = true := by
          rintro ⟨A0, i0, A1, i1, hgrp, htrue⟩
          exact absurd htrue (by simpa using hne A0 i0 A1 i1 hgrp)
        rcases (hnotgroup e).mp hne' with hcnt | hbad
        · exact .inr (.inr (.inl ⟨e, he, hcnt⟩))
        · exact .inr (.inr (.inr (.inl ⟨e, he, hbad⟩)))
      by_cases hD : ∀ e ∈ forder, v.flatten.count e = 1
      case neg =>
        push_neg at hD
        exact .inr (.inr (.inr (.inr hD)))
      exact absurd ⟨hA, hB, hC, hD⟩ h
    · rintro (h | ⟨i, hi, hne⟩ | ⟨e, he, hcnt⟩ | ⟨e, he, hbad⟩ | ⟨e, he, hcnt⟩)
          ⟨gA, gB, gC, gD⟩
      · exact h gA
      · exact hne (gB i hi)
      · obtain ⟨A0, i0, A1, i1, hgrp, _⟩ := gC e he
        have hlg := order_group_length v e
        rw [hgrp] at hlg
        exact hcnt (by rw [← hlg]; rfl)
      · obtain ⟨A0, i0, A1, i1, hgrp, hfalse⟩ := hbad
        obtain ⟨B0, j0, B1, j1, hgrp', htrue⟩ := gC e he
        rw [hgrp] at hgrp'
        injection hgrp' with ha hb
        injection hb with hb hc
        simp only [Prod.mk.injEq] at ha hb
        obtain ⟨rfl, rfl⟩ := ha
        obtain ⟨rfl, rfl⟩ := hb
        rw [htrue] at hfalse
        cases hfalse
      · exact hcnt (gD e he)
  refine ⟨?_, ?_, order_group_length v, order_group_mem v⟩
  · constructor
    · rintro ⟨err, herr⟩
      apply hiff.mp
      intro hg
      have := hgood.mpr hg
      rw [herr] at this
      cases this
    · intro hbad
      rcases hcases with h | h
      · exact h
      · exact absurd (hgood.mp h) (hiff.mpr hbad)
  · intro hnbad
    exact hgood.mpr (by
      by_contra hng
      exact hnbad (hiff.mp hng))

/-- Applies `do_check_indices_spec` at a concrete valid input (two 2×3 /
3×2 matrices contracted over label 1 with free labels −1, −2), with the
no-error hypothesis discharged. -/
theorem do_check_indices_spec_witness :
    do_check_indices
        [⟨[2, 3], false, fun _ _ _ => false⟩, ⟨[3, 2], false, fun _ _ _ => false⟩]
        [[.int (-1), .int 1], [.int 1, .int (-2)]]
        [.int 1] [.int (-1), .int (-2)] = .ok true := by
  apply (do_check_indices_spec
      [⟨[2, 3], false, fun _ _ _ => false⟩, ⟨[3, 2], false, fun _ _ _ => false⟩]
      [[.int (-1), .int 1], [.int 1, .int (-2)]]
      [.int 1] [.int (-1), .int (-2)]).2.1
  rintro (h | ⟨i, hi, hne⟩ | ⟨e, he, hcnt⟩ | ⟨e, he, hbad⟩ | ⟨e, he, hcnt⟩)
  · exact h rfl
  · have hi2 : i < 2 := by simpa using hi
    interval_cases i <;> simp_all
  · apply hcnt
    have : e = Label.int 1 := by simpa using he
    subst this
    rfl
  · obtain ⟨A0, i0, A1, i1, hgrp, hfalse⟩ := hbad
    have : e = Label.int 1 := by simpa using he
    subst this
    have hg : order_group [[Label.int (-1), .int 1], [.int 1, .int (-2)]] (.int 1)
        = [(0, 1), (1, 0)] := rfl
    rw [hg] at hgrp
    injection hgrp with ha hb
    injection hb with hb hc
    simp only [Prod.mk.injEq] at ha hb
    obtain ⟨rfl, rfl⟩ := ha
    obtain ⟨rfl, rfl⟩ := hb
    cases hfalse
  · rcases (by simpa using he : e = Label.int (-1) ∨ e = Label.int (-2)) with rfl | rfl
    · exact hcnt rfl
    · exact hcnt rfl

/-! ## C6: defaults for omitted `order` and `forder` -/

/-- **C6**: when `order` is omitted it defaults to the sorted distinct
positive integer labels of the leg lists; when `forder` is omitted it
defaults to the distinct negative integer labels sorted −1, −2, −3, …
(descending); if any label is not an integer, the omitted argument is an
error rather than a derived default. -/
theorem default_order_forder_spec (v : List (List Label)) :
    (indices_are_ints v = true →
      preprocess_forder_order none v .order = .ok (create_order v)
      ∧ preprocess_forder_order none v .forder = .ok (create_forder v))
    ∧ (∃ ns : List Int, create_order v = ns.map Label.int ∧ ns.Sorted (· < ·) ∧
        ∀ n : Int, n ∈ ns ↔ 0 < n ∧ Label.int n ∈ v.flatten)
    ∧ (∃ ns : List Int, create_forder v = ns.map Label.int ∧ ns.Sorted (· > ·) ∧
        ∀ n : Int, n ∈ ns ↔ n < 0 ∧ Label.int n ∈ v.flatten)
    ∧ (indices_are_ints v = false →
        preprocess_forder_order none v .order = .error .nonIntIndices
        ∧ preprocess_forder_order none v .forder = .error .nonIntIndices) := by
  refine ⟨fun h => ?_, ?_, ?_, fun h => ?_⟩
  · constructor <;> simp [preprocess_forder_order, h]
  · refine ⟨(((v.flatten.filterMap (fun l => match l with
        | Label.int n => if 0 < n then some n else none
        | Label.str _ => none)).dedup).insertionSort (· ≤ ·)), ?_, ?_, ?_⟩
    · rfl
    · apply List.Sorted.lt_of_le (List.sorted_insertionSort _ _)
      exact (List.perm_insertionSort _ _).nodup_iff.mpr (List.nodup_dedup _)
    · intro n
      rw [(List.perm_insertionSort _ _).mem_iff, List.mem_dedup, List.mem_filterMap]
      constructor
      · rintro ⟨a, ha, hfa⟩
        cases a with
        | int m =>
          change (if 0 < m then some m else none) = some n at hfa
          by_cases hm : 0 < m
          · rw [if_pos hm] at hfa
            cases hfa
            exact ⟨hm, ha⟩
          · rw [if_neg hm] at hfa
            cases hfa
        | str s =>
          change none = some n at hfa
          cases hfa
      · rintro ⟨hn, hmem⟩
        refine ⟨Label.int n, hmem, ?_⟩
        show (if 0 < n then some n else none) = some n
        rw [if_pos hn]
  · refine ⟨(((v.flatten.filterMap (fun l => match l with
        | Label.int n => if n < 0 then some n else none
        | Label.str _ => none)).dedup).insertionSort (· ≥ ·)), ?_, ?_, ?_⟩
    · rfl
    · have hsorted : List.Sorted (· ≥ ·)
          ((v.flatten.filterMap (fun l => match l with
            | Label.int n => if n < 0 then some n else none
            | Label.str _ => none)).dedup.insertionSort (· ≥ ·)) :=
        List.sorted_insertionSort _ _
      have hnodup : (((v.flatten.filterMap (fun l => match l with
            | Label.int n => if n < 0 then some n else none
            | Label.str _ => none)).dedup).insertionSort (· ≥ ·)).Nodup :=
        (List.perm_insertionSort _ _).nodup_iff.mpr (List.nodup_dedup _)
      exact (hsorted.and hnodup).imp
        (fun hab => lt_of_le_of_ne hab.1 (Ne.symm hab.2))
    · intro n
      rw [(List.perm_insertionSort _ _).mem_iff, List.mem_dedup, List.mem_filterMap]
      constructor
      · rintro ⟨a, ha, hfa⟩
        cases a with
        | int m =>
          change (if m < 0 then some m else none) = some n at hfa
          by_cases hm : m < 0
          · rw [if_pos hm] at hfa
            cases hfa
            exact ⟨hm, ha⟩
          · rw [if_neg hm] at hfa
            cases hfa
        | str s =>
          change none = some n at hfa
          cases hfa
      · rintro ⟨hn, hmem⟩
        refine ⟨Label.int n, hmem, ?_⟩
        show (if n < 0 then some n else none) = some n
        rw [if_pos hn]
  · constructor <;> simp [preprocess_forder_order, h]

/-- Applies `default_order_forder_spec` at a concrete all-integer input. -/
theorem default_order_forder_spec_witness :
    preprocess_forder_order none
        [[Label.int 2, Label.int (-1)], [Label.int 2, Label.int 1, Label.int (-2)]] .order
      = .ok [Label.int 1, Label.int 2]
    ∧ preprocess_forder_order none
        [[Label.int 2, Label.int (-1)], [Label.int 2, Label.int 1, Label.int (-2)]] .forder
      = .ok [Label.int (-1), Label.int (-2)] := by
  have h := (default_order_forder_spec
    [[Label.int 2, Label.int (-1)], [Label.int 2, Label.int 1, Label.int (-2)]]).1
    (by decide)
  refine ⟨h.1.trans ?_, h.2.trans ?_⟩ <;> rfl

/-! ## C10: the validator does not require `order` to cover repeated labels -/

/-- **C10**: a concrete input in which the label `1` occurs exactly twice
across the leg lists yet appears in neither `order` nor `forder`, and
`do_check_indices` succeeds: the occurrence-count checks only run over the
labels listed in `order` and `forder`. -/
theorem validator_misses_uncovered_pair :
    do_check_indices
        [⟨[2], false, fun _ _ _ => false⟩, ⟨[2], false, fun _ _ _ => false⟩]
        [[.int 1], [.int 1]] [] [] = .ok true
    ∧ ([[Label.int 1], [Label.int 1]] : List (List Label)).flatten.count (.int 1) = 2
    ∧ (Label.int 1) ∉ ([] : List Label)
    ∧ (Label.int 1) ∉ ([] : List Label) := by
  exact ⟨rfl, by decide, by simp, by simp⟩

/-! ## Characterizing a successful scheduler step -/

lemma get_tcon_ok_char (v : List (List Label)) (index : Label) (tcon : List Nat)
    (h : get_tcon v index = .ok tcon) :
    tcon = (List.range v.length).filter (fun i => index ∈ v.getD i [])
    ∧ (tcon.length = 1 ∨ tcon.length = 2)
    ∧ (tcon.length = 1 → (v.getD (tcon.getD 0 0) []).count index = 2) := by
  have hget : get_tcon v index = (
      let t := (List.range v.length).filter (fun i => index ∈ v.getD i [])
      if t.length > 2 then .error .tconTooMany
      else if t.length < 1 then .error .tconTooFew
      else if t.length = 1 then
        if (v.getD (t.getD 0 0) []).count index ≠ 2 then .error .traceNotTwice
        else .ok t
      else .ok t) := rfl
  set t := (List.range v.length).filter (fun i => index ∈ v.getD i []) with ht
  rw [show (let t := (List.range v.length).filter (fun i => index ∈ v.getD i [])
      if t.length > 2 then (Except.error NconError.tconTooMany :
            Except NconError (List Nat))
      else if t.length < 1 then .error .tconTooFew
      else if t.length = 1 then
        if (v.getD (t.getD 0 0) []).count index ≠ 2 then .error .traceNotTwice
        else .ok t
      else .ok t) = (
      if t.length > 2 then .error .tconTooMany
      else if t.length < 1 then .error .tconTooFew
      else if t.length = 1 then
        if (v.getD (t.getD 0 0) []).count index ≠ 2 then .error .traceNotTwice
        else .ok t
      else .ok t) from rfl] at hget
  rw [hget] at h
  split_ifs at h with h1 h2 h3 h4
  all_goals first
    | exact Except.noConfusion h
    | (obtain rfl : t = tcon := Except.ok.inj h
       exact ⟨rfl, by omega, fun hl1 => by omega⟩)

lemma sort_desc_single (a : Nat) : sort_desc [a] = [a] := rfl

lemma sort_desc_pair {a b : Nat} (h : a < b) : sort_desc [a, b] = [b, a] := by
  simp [sort_desc, List.insertionSort, List.orderedInsert]
  omega

/-- A successful `ncon_step` is either a self-trace or a two-tensor
contraction, with the resulting lists in the append-then-delete form of
the source. -/
lemma ncon_step_char (L : List Tensor) (v : List (List Label)) (e : Label)
    (L2 : List Tensor) (v2 : List (List Label)) (icon : List Label) (bc : BCall)
    (h : ncon_step L v e = .ok (L2, v2, icon, bc)) :
    (∃ t, get_tcon v e = .ok [t] ∧ t < v.length ∧ e ∈ v.getD t []
      ∧ (v.getD t []).count e = 2
      ∧ icon = [e]
      ∧ v2 = (v ++ [find_newv v [t] [e]]).eraseIdx t
      ∧ L2 = (L ++ [trace (L.getD t default)
          ((get_pos v [t] [e]).1.getD 0 0)
          ((get_pos v [t] [e]).1.getD 1 0)]).eraseIdx t
      ∧ bc = .traceC)
    ∨ (∃ a b, get_tcon v e = .ok [a, b] ∧ a < b ∧ b < v.length
      ∧ e ∈ v.getD a [] ∧ e ∈ v.getD b []
      ∧ icon = get_icon v [a, b]
      ∧ v2 = ((v ++ [find_newv v [a, b] (get_icon v [a, b])]).eraseIdx b).eraseIdx a
      ∧ L2 = ((L ++ [con (L.getD a default) (L.getD b default)
            (get_pos v [a, b] (get_icon v [a, b])).1
            (get_pos v [a, b] (get_icon v [a, b])).2]).eraseIdx b).eraseIdx a
      ∧ bc = .conC) := by
  unfold ncon_step at h
  rcases ht : get_tcon v e with err | tcon
  · rw [ht] at h
    exact Except.noConfusion h
  · rw [ht] at h
    obtain ⟨-, hlen12, htrace⟩ := get_tcon_ok_char v e tcon ht
    obtain ⟨hsorted, hmem⟩ := (get_tcon_spec v e).2 tcon ht
    rcases hlen12 with h1 | h2
    · obtain ⟨t, rfl⟩ := List.length_eq_one.mp h1
      left
      have hcnt := htrace h1
      have hmt := (hmem t).mp (by simp)
      have hok : Except.ok (((L ++ [trace (L.getD t default)
            ((get_pos v [t] [e]).1.getD 0 0)
            ((get_pos v [t] [e]).1.getD 1 0)]).eraseIdx t),
          ((v ++ [find_newv v [t] [e]]).eraseIdx t), [e], BCall.traceC)
          = Except.ok (L2, v2, icon, bc) := h
      have hinj := Except.ok.inj hok
      simp only [Prod.mk.injEq] at hinj
      obtain ⟨hL2, hv2, hicon, hbc⟩ := hinj
      exact ⟨t, rfl, hmt.1, hmt.2, by simpa using hcnt, hicon.symm, hv2.symm,
        hL2.symm, hbc.symm⟩
    · obtain ⟨a, b, rfl⟩ := List.length_eq_two.mp h2
      right
      have hma := (hmem a).mp (by simp)
      have hmb := (hmem b).mp (by simp)
      have hab : a < b := by
        rw [List.sorted_cons] at hsorted
        exact hsorted.1 b (by simp)
      have h' : (match delete_idxs
            (L ++ [con (L.getD a default) (L.getD b default)
              (get_pos v [a, b] (get_icon v [a, b])).1
              (get_pos v [a, b] (get_icon v [a, b])).2])
            (v ++ [find_newv v [a, b] (get_icon v [a, b])])
            (sort_desc [a, b]) with
          | (L2', v2') =>
            (Except.ok (L2', v2', get_icon v [a, b], BCall.conC) :
              Except NconError (List Tensor × List (List Label) × List Label × BCall)))
          = Except.ok (L2, v2, icon, bc) := h
      rw [sort_desc_pair hab] at h'
      have hok : Except.ok ((((L ++ [con (L.getD a default) (L.getD b default)
            (get_pos v [a, b] (get_icon v [a, b])).1
            (get_pos v [a, b] (get_icon v [a, b])).2]).eraseIdx b).eraseIdx a),
          (((v ++ [find_newv v [a, b] (get_icon v [a, b])]).eraseIdx b).eraseIdx a),
          get_icon v [a, b], BCall.conC)
          = Except.ok (L2, v2, icon, bc) := h'
      have hinj := Except.ok.inj hok
      simp only [Prod.mk.injEq] at hinj
      obtain ⟨hL2, hv2, hicon, hbc⟩ := hinj
      exact ⟨a, b, rfl, hab, hmb.1, hma.2, hmb.2, hicon.symm, hv2.symm,
        hL2.symm, hbc.symm⟩

/-! ## C3: the network-state invariant -/

/-- The network-state invariant of spec §3: tensor list and leg-list list
have equal length, and each leg list is as long as its tensor's rank. -/
def net_invariant (L : List Tensor) (v : List (List Label)) : Prop :=
  L.length = v.length
  ∧ ∀ i, i < v.length → (v.getD i []).length = (L.getD i default).shape.length

lemma getD_append_lt {α : Type _} (d : α) :
    ∀ (l₁ l₂ : List α) (j : Nat), j < l₁.length →
      (l₁ ++ l₂).getD j d = l₁.getD j d
  | [], _, _, h => by simp at h
  | x :: xs, l₂, 0, _ => by simp
  | x :: xs, l₂, j + 1, h => by
    have ih := getD_append_lt d xs l₂ j (by simpa using h)
    simpa using ih

lemma getD_append_len {α : Type _} (d : α) :
    ∀ (l : List α) (x : α), (l ++ [x]).getD l.length d = x
  | [], x => by simp
  | y :: ys, x => by
    have ih := getD_append_len d ys x
    simpa using ih

/-- Pointwise transport of a relation between two aligned lists through the
scheduler's append-then-double-delete surgery. -/
lemma aligned_append_erase2 {α β : Type _} (dA : α) (dB : β) (R : α → β → Prop)
    (A : List α) (B : List β) (x : α) (y : β) (a b : Nat)
    (hlen : A.length = B.length)
    (hR : ∀ i, i < A.length → R (A.getD i dA) (B.getD i dB))
    (hxy : R x y) (hab : a < b) (hb : b < A.length) :
    (((A ++ [x]).eraseIdx b).eraseIdx a).length = A.length - 1
    ∧ (((B ++ [y]).eraseIdx b).eraseIdx a).length = A.length - 1
    ∧ ∀ j, j < A.length - 1 →
        R ((((A ++ [x]).eraseIdx b).eraseIdx a).getD j dA)
          ((((B ++ [y]).eraseIdx b).eraseIdx a).getD j dB) := by
  have hbB : b < B.length := by omega
  have heA : (A ++ [x]).eraseIdx b = A.eraseIdx b ++ [x] :=
    List.eraseIdx_append_of_lt_length hb [x]
  have heB : (B ++ [y]).eraseIdx b = B.eraseIdx b ++ [y] :=
    List.eraseIdx_append_of_lt_length hbB [y]
  have hlenA : (A.eraseIdx b).length = A.length - 1 := by
    rw [List.length_eraseIdx]
    simp [hb]
  have hlenB : (B.eraseIdx b).length = B.length - 1 := by
    rw [List.length_eraseIdx]
    simp [hbB]
  have haA : a < (A.eraseIdx b).length := by omega
  have haB : a < (B.eraseIdx b).length := by omega
  have heA2 : (A.eraseIdx b ++ [x]).eraseIdx a = (A.eraseIdx b).eraseIdx a ++ [x] :=
    List.eraseIdx_append_of_lt_length haA [x]
  have heB2 : (B.eraseIdx b ++ [y]).eraseIdx a = (B.eraseIdx b).eraseIdx a ++ [y] :=
    List.eraseIdx_append_of_lt_length haB [y]
  have hlenA2 : ((A.eraseIdx b).eraseIdx a).length = A.length - 2 := by
    rw [List.length_eraseIdx]
    simp [haA]
    omega
  have hlenB2 : ((B.eraseIdx b).eraseIdx a).length = B.length - 2 := by
    rw [List.length_eraseIdx]
    simp [haB]
    omega
  rw [heA, heA2, heB, heB2]
  refine ⟨by simp [hlenA2]; omega, by simp [hlenB2]; omega, ?_⟩
  intro j hj
  by_cases hjr : j < A.length - 2
  · rw [getD_append_lt dA _ _ _ (by omega), getD_append_lt dB _ _ _ (by omega)]
    by_cases hja : j < a
    · rw [getD_eraseIdx_lt dA _ a j hja, getD_eraseIdx_lt dB _ a j hja,
        getD_eraseIdx_lt dA _ b j (by omega), getD_eraseIdx_lt dB _ b j (by omega)]
      exact hR j (by omega)
    · rw [getD_eraseIdx_ge dA _ a j (by omega) (by omega),
        getD_eraseIdx_ge dB _ a j (by omega) (by omega)]
      by_cases hjb : j + 1 < b
      · rw [getD_eraseIdx_lt dA _ b (j + 1) hjb, getD_eraseIdx_lt dB _ b (j + 1) hjb]
        exact hR (j + 1) (by omega)
      · rw [getD_eraseIdx_ge dA _ b (j + 1) (by omega) (by omega),
          getD_eraseIdx_ge dB _ b (j + 1) (by omega) (by omega)]
        exact hR (j + 2) (by omega)
  · have hjx : j = A.length - 2 := by omega
    have hjA : j = ((A.eraseIdx b).eraseIdx a).length := by omega
    have hjB : j = ((B.eraseIdx b).eraseIdx a).length := by omega
    rw [hjA, getD_append_len]
    rw [show ((A.eraseIdx b).eraseIdx a).length
        = ((B.eraseIdx b).eraseIdx a).length by omega, getD_append_len]
    exact hxy

/-- Pointwise transport of a relation through the append-then-single-delete
surgery of a self-trace step. -/
lemma aligned_append_erase1 {α β : Type _} (dA : α) (dB : β) (R : α → β → Prop)
    (A : List α) (B : List β) (x : α) (y : β) (t : Nat)
    (hlen : A.length = B.length)
    (hR : ∀ i, i < A.length → R (A.getD i dA) (B.getD i dB))
    (hxy : R x y) (ht : t < A.length) :
    ((A ++ [x]).eraseIdx t).length = A.length
    ∧ ((B ++ [y]).eraseIdx t).length = A.length
    ∧ ∀ j, j < A.length →
        R (((A ++ [x]).eraseIdx t).getD j dA)
          (((B ++ [y]).eraseIdx t).getD j dB) := by
  have htB : t < B.length := by omega
  have heA : (A ++ [x]).eraseIdx t = A.eraseIdx t ++ [x] :=
    List.eraseIdx_append_of_lt_length ht [x]
  have heB : (B ++ [y]).eraseIdx t = B.eraseIdx t ++ [y] :=
    List.eraseIdx_append_of_lt_length htB [y]
  have hlenA : (A.eraseIdx t).length = A.length - 1 := by
    rw [List.length_eraseIdx]
    simp [ht]
  have hlenB : (B.eraseIdx t).length = B.length - 1 := by
    rw [List.length_eraseIdx]
    simp [htB]
  rw [heA, heB]
  refine ⟨by simp [hlenA]; omega, by simp [hlenB]; omega, ?_⟩
  intro j hj
  by_cases hjr : j < A.length - 1
  · rw [getD_append_lt dA _ _ _ (by omega), getD_append_lt dB _ _ _ (by omega)]
    by_cases hjt : j < t
    · rw [getD_eraseIdx_lt dA _ t j hjt, getD_eraseIdx_lt dB _ t j hjt]
      exact hR j (by omega)
    · rw [getD_eraseIdx_ge dA _ t j (by omega) (by omega),
        getD_eraseIdx_ge dB _ t j (by omega) (by omega)]
      exact hR (j + 1) (by omega)
  · have hjA : j = (A.eraseIdx t).length := by omega
    rw [hjA, getD_append_len]
    rw [show (A.eraseIdx t).length = (B.eraseIdx t).length by omega, getD_append_len]
    exact hxy

lemma get_pos_trace (v : List (List Label)) (t : Nat) (e : Label) :
    (get_pos v [t] [e]).1 = positions_of e 0 (v.getD t []) := by
  simp [get_pos]

lemma mem_flatten_positions (icon : List Label) (l : List Label) (k : Nat) :
    k ∈ (icon.map (fun e => positions_of e 0 l)).flatten ↔
      (k < l.length ∧ l.getD k (.int 0) ∈ icon) := by
  rw [List.mem_flatten]
  constructor
  · rintro ⟨lst, hlst, hk⟩
    rw [List.mem_map] at hlst
    obtain ⟨e, he, rfl⟩ := hlst
    have := (mem_positions_of e l 0 k).mp hk
    rw [Nat.sub_zero] at this
    exact ⟨this.2.1, this.2.2 ▸ he⟩
  · rintro ⟨hk, hmem⟩
    refine ⟨positions_of (l.getD k (.int 0)) 0 l, List.mem_map.mpr ⟨_, hmem, rfl⟩, ?_⟩
    rw [mem_positions_of]
    exact ⟨Nat.zero_le _, by simpa using hk, by simp⟩

/-- Rank contract for a contraction: the concatenated surviving axes are in
bijection with the filtered leg lists. -/
lemma con_rank (Ta Tb : Tensor) (va vb : List Label) (icon : List Label)
    (ha : Ta.shape.length = va.length) (hb : Tb.shape.length = vb.length) :
    (con Ta Tb
        ((icon.map (fun e => positions_of e 0 va)).flatten)
        ((icon.map (fun e => positions_of e 0 vb)).flatten)).shape.length
      = (va.filter (fun x => x ∉ icon)).length
        + (vb.filter (fun x => x ∉ icon)).length := by
  have h1 := removeAxesFrom_length icon
    ((icon.map (fun e => positions_of e 0 va)).flatten) Ta.shape va 0 ha
    (by
      intro k hk0 hk1
      rw [mem_flatten_positions, Nat.sub_zero]
      simp only [Nat.zero_add] at hk1
      constructor
      · rintro ⟨_, h⟩
        exact h
      · intro h
        exact ⟨by omega, h⟩)
  have h2 := removeAxesFrom_length icon
    ((icon.map (fun e => positions_of e 0 vb)).flatten) Tb.shape vb 0 hb
    (by
      intro k hk0 hk1
      rw [mem_flatten_positions, Nat.sub_zero]
      simp only [Nat.zero_add] at hk1
      constructor
      · rintro ⟨_, h⟩
        exact h
      · intro h
        exact ⟨by omega, h⟩)
  show (removeAxes Ta.shape _ ++ removeAxes Tb.shape _).length = _
  rw [List.length_append]
  rw [show removeAxes Ta.shape ((icon.map (fun e => positions_of e 0 va)).flatten)
      = removeAxesFrom ((icon.map (fun e => positions_of e 0 va)).flatten) 0 Ta.shape
      from rfl]
  rw [show removeAxes Tb.shape ((icon.map (fun e => positions_of e 0 vb)).flatten)
      = removeAxesFrom ((icon.map (fun e => positions_of e 0 vb)).flatten) 0 Tb.shape
      from rfl]
  rw [h1, h2]

/-- Rank contract for a self-trace: removing the two axes carrying the
traced label matches filtering the label out of the leg list. -/
lemma trace_rank (T : Tensor) (l : List Label) (e : Label)
    (hs : T.shape.length = l.length) (hcnt : l.count e = 2) :
    (trace T ((positions_of e 0 l).getD 0 0)
        ((positions_of e 0 l).getD 1 0)).shape.length
      = (l.filter (fun x => x ∉ [e])).length := by
  have hlen : (positions_of e 0 l).length = 2 := by
    rw [length_positions_of]
    exact hcnt
  obtain ⟨p, q, hpq⟩ := List.length_eq_two.mp hlen
  have hgp : (positions_of e 0 l).getD 0 0 = p := by rw [hpq]; rfl
  have hgq : (positions_of e 0 l).getD 1 0 = q := by rw [hpq]; rfl
  rw [hgp, hgq]
  have h1 := removeAxesFrom_length [e] [p, q] T.shape l 0 hs
    (by
      intro k hk0 hk1
      simp only [Nat.zero_add] at hk1
      rw [Nat.sub_zero]
      have : (k ∈ [p, q]) ↔ k ∈ positions_of e 0 l := by rw [hpq]
      rw [this, mem_positions_of, Nat.sub_zero]
      constructor
      · rintro ⟨_, _, h⟩
        simpa using h
      · intro h
        have he : l.getD k (.int 0) = e := by simpa using h
        exact ⟨Nat.zero_le _, by omega, he⟩)
  show (removeAxes T.shape [p, q]).length = _
  rw [show removeAxes T.shape [p, q] = removeAxesFrom [p, q] 0 T.shape from rfl, h1]

/-- One linking step of `connect_graph` preserves the network invariant. -/
lemma link_step_inv (L : List Tensor) (v : List (List Label)) (c d : Nat)
    (dim : Label) (hinv : net_invariant L v) :
    net_invariant
      ((L.set c (expand_dims (L.getD c default) (v.getD c []).length)).set d
        (expand_dims (L.getD d default) (v.getD d []).length))
      ((v.set c ((v.getD c []) ++ [dim])).set d ((v.getD d []) ++ [dim])) := by
  obtain ⟨hlen, hranks⟩ := hinv
  constructor
  · simp [List.length_set, hlen]
  · intro j hj
    simp only [List.length_set] at hj
    by_cases hjd : j = d
    · subst hjd
      rw [getD_set_self [] _ _ _ (by simpa [List.length_set] using hj),
        getD_set_self default _ _ _ (by simp [List.length_set]; omega)]
      show ((v.getD j []) ++ [dim]).length = (expand_dims _ _).shape.length
      rw [List.length_append]
      show (v.getD j []).length + 1
          = ((L.getD j default).shape.insertIdx (v.getD j []).length 1).length
      rw [List.length_insertIdx _ _ (by rw [← hranks j hj])]
      rw [hranks j hj]
    · rw [getD_set_ne [] _ _ _ _ (fun hdj => hjd hdj.symm),
        getD_set_ne default _ _ _ _ (fun hdj => hjd hdj.symm)]
      by_cases hjc : j = c
      · subst hjc
        rw [getD_set_self [] _ _ _ hj,
          getD_set_self default _ _ _ (by omega)]
        show ((v.getD j []) ++ [dim]).length = (expand_dims _ _).shape.length
        rw [List.length_append]
        show (v.getD j []).length + 1
            = ((L.getD j default).shape.insertIdx (v.getD j []).length 1).length
        rw [List.length_insertIdx _ _ (by rw [← hranks j hj])]
        rw [hranks j hj]
      · rw [getD_set_ne [] _ _ _ _ (fun h => hjc h.symm),
          getD_set_ne default _ _ _ _ (fun h => hjc h.symm)]
        exact hranks j hj

/-- `link_loop` preserves the network invariant. -/
lemma link_loop_inv (c : Nat) :
    ∀ (comps : List (List Nat)) (L : List Tensor) (v : List (List Label))
      (order : List Label) (ev : List BCall),
      net_invariant L v →
      net_invariant (link_loop c comps L v order ev).1
        (link_loop c comps L v order ev).2.1
  | [], _, _, _, _, hinv => hinv
  | [] :: restRev, L, v, order, ev, hinv =>
    link_loop_inv c restRev L v order ev hinv
  | (d :: ds) :: restRev, L, v, order, ev, hinv => by
    show net_invariant (link_loop c restRev _ _ _ _).1 (link_loop c restRev _ _ _ _).2.1
    exact link_loop_inv c restRev _ _ _ _ (link_step_inv L v c d _ hinv)

/-- **C3**: the network-state invariant (equal lengths, leg-list length =
tensor rank) is preserved by `connect_graph` and by every successful
scheduler step: each step appends one tensor with one leg list and deletes
the same positions from both lists, the new tensor's rank matching its leg
list by the backend rank contracts. -/
theorem network_invariant_preserved :
    (∀ (L : List Tensor) (v : List (List Label)) (order : List Label)
        (L1 : List Tensor) (v1 : List (List Label)) (order1 : List Label)
        (ev : List BCall),
        net_invariant L v →
        connect_graph L v order = .ok (L1, v1, order1, ev) →
        net_invariant L1 v1)
    ∧ (∀ (L : List Tensor) (v : List (List Label)) (e : Label)
        (L2 : List Tensor) (v2 : List (List Label)) (icon : List Label)
        (bc : BCall),
        net_invariant L v →
        ncon_step L v e = .ok (L2, v2, icon, bc) →
        net_invariant L2 v2) := by
  constructor
  · intro L v order L1 v1 order1 ev hinv h
    unfold connect_graph at h
    rcases hcl : (ccomponents L v).getLast? with _ | lastComp
    · rw [hcl] at h
      exact Except.noConfusion h
    · rw [hcl] at h
      match lastComp, h with
      | [], h => exact Except.noConfusion h
      | c :: cs, h =>
        have hinj := Except.ok.inj h
        have hres := link_loop_inv c ((ccomponents L v).dropLast.reverse)
          L v order [] hinv
        rw [hinj] at hres
        exact hres
  · intro L v e L2 v2 icon bc hinv h
    obtain ⟨hlen, hranks⟩ := hinv
    rcases ncon_step_char L v e L2 v2 icon bc h with
      ⟨t, htcon, ht, hmem, hcnt, hicon, hv2, hL2, hbc⟩ |
      ⟨a, b, htcon, hab, hb, hma, hmb, hicon, hv2, hL2, hbc⟩
    · -- self-trace step
      have htL : t < L.length := by omega
      have hs : (L.getD t default).shape.length = (v.getD t []).length :=
        (hranks t ht).symm
      have hxy : (find_newv v [t] [e]).length
          = (trace (L.getD t default)
              ((get_pos v [t] [e]).1.getD 0 0)
              ((get_pos v [t] [e]).1.getD 1 0)).shape.length := by
        rw [get_pos_trace]
        rw [trace_rank (L.getD t default) (v.getD t []) e hs hcnt]
        rfl
      have := aligned_append_erase1 default ([] : List Label)
        (fun T lg => lg.length = T.shape.length) L v
        (trace (L.getD t default)
          ((get_pos v [t] [e]).1.getD 0 0)
          ((get_pos v [t] [e]).1.getD 1 0))
        (find_newv v [t] [e]) t hlen
        (fun i hi => hranks i (by omega)) hxy htL
      obtain ⟨hlA, hlB, hpt⟩ := this
      subst hv2 hL2
      exact ⟨by omega, fun j hj => hpt j (by omega)⟩
    · -- two-tensor contraction step
      have haL : a < L.length := by omega
      have hbL : b < L.length := by omega
      have hsa : (L.getD a default).shape.length = (v.getD a []).length :=
        (hranks a (by omega)).symm
      have hsb : (L.getD b default).shape.length = (v.getD b []).length :=
        (hranks b hb).symm
      have hxy : (find_newv v [a, b] (get_icon v [a, b])).length
          = (con (L.getD a default) (L.getD b default)
              (get_pos v [a, b] (get_icon v [a, b])).1
              (get_pos v [a, b] (get_icon v [a, b])).2).shape.length := by
        have hcr := con_rank (L.getD a default) (L.getD b default)
          (v.getD a []) (v.getD b []) (get_icon v [a, b]) hsa hsb
        have hfv : find_newv v [a, b] (get_icon v [a, b])
            = (v.getD a []).filter (fun x => x ∉ get_icon v [a, b])
              ++ (v.getD b []).filter (fun x => x ∉ get_icon v [a, b]) := by
          show ((v.getD a []) ++ (v.getD b [])).filter
              (fun x => x ∉ get_icon v [a, b]) = _
          rw [List.filter_append]
        rw [hfv, List.length_append]
        rw [show (get_pos v [a, b] (get_icon v [a, b])).1
            = ((get_icon v [a, b]).map
                (fun e => positions_of e 0 (v.getD a []))).flatten from rfl]
        rw [show (get_pos v [a, b] (get_icon v [a, b])).2
            = ((get_icon v [a, b]).map
                (fun e => positions_of e 0 (v.getD b []))).flatten from rfl]
        rw [hcr]
      have := aligned_append_erase2 default ([] : List Label)
        (fun T lg => lg.length = T.shape.length) L v
        (con (L.getD a default) (L.getD b default)
          (get_pos v [a, b] (get_icon v [a, b])).1
          (get_pos v [a, b] (get_icon v [a, b])).2)
        (find_newv v [a, b] (get_icon v [a, b])) a b hlen
        (fun i hi => hranks i (by omega)) hxy hab hbL
      obtain ⟨hlA, hlB, hpt⟩ := this
      subst hv2 hL2
      exact ⟨by omega, fun j hj => hpt j (by omega)⟩

/-- Applies `network_invariant_preserved` at a concrete self-trace step,
discharging its hypotheses. -/
theorem network_invariant_preserved_witness :
    net_invariant [⟨[], false, fun _ _ _ => false⟩] [([] : List Label)] :=
  network_invariant_preserved.2
    [⟨[2, 2], false, fun _ _ _ => false⟩] [[.int 1, .int 1]] (.int 1)
    [⟨[], false, fun _ _ _ => false⟩] [([] : List Label)] [.int 1] .traceC
    ⟨rfl, by decide⟩ rfl

/-! ## C2: scheduler termination and the final single tensor

Connectivity of the tensor graph (spec §4.2): vertices are positions in
`v`, adjacent iff the two leg lists share a label. -/

def adjacent (v : List (List Label)) (i j : Nat) : Prop :=
  i < v.length ∧ j < v.length ∧ i ≠ j
    ∧ ∃ e, e ∈ v.getD i [] ∧ e ∈ v.getD j []

def Conn (v : List (List Label)) : Prop :=
  ∀ i j, i < v.length → j < v.length → Relation.ReflTransGen (adjacent v) i j

/-- Transporting reflexive-transitive reachability along a vertex map that
sends edges to edges or collapses them. -/
lemma reach_map {R S : Nat → Nat → Prop} (f : Nat → Nat)
    (hstep : ∀ i j, R i j → S (f i) (f j) ∨ f i = f j) :
    ∀ i j, Relation.ReflTransGen R i j →
      Relation.ReflTransGen S (f i) (f j) := by
  intro i j h
  induction h with
  | refl => exact .refl
  | tail _ hbc ih =>
    rcases hstep _ _ hbc with hS | hEq
    · exact ih.tail hS
    · rw [← hEq]
      exact ih

/-- The position maps used when two tensors at positions `a < b` are
replaced by a merged tensor appended at the end. -/
def shift2 (a b n i : Nat) : Nat :=
  if i = a ∨ i = b then n - 2
  else if i < a then i else if i < b then i - 1 else i - 2

def unshift2 (a b n p : Nat) : Nat :=
  if p = n - 2 then a else if p < a then p else if p < b - 1 then p + 1 else p + 2

/-- The position maps used when the tensor at position `t` is replaced by
a traced tensor appended at the end. -/
def shift1 (t n i : Nat) : Nat :=
  if i = t then n - 1 else if i < t then i else i - 1

def unshift1 (t n p : Nat) : Nat :=
  if p = n - 1 then t else if p < t then p else p + 1

lemma erase2_append {α : Type _} (A : List α) (x : α) (a b : Nat)
    (hab : a < b) (hb : b < A.length) :
    ((A ++ [x]).eraseIdx b).eraseIdx a
      = ((A.eraseIdx b).eraseIdx a) ++ [x]
    ∧ ((A.eraseIdx b).eraseIdx a).length = A.length - 2 := by
  have h1 : (A ++ [x]).eraseIdx b = A.eraseIdx b ++ [x] :=
    List.eraseIdx_append_of_lt_length hb [x]
  have hl1 : (A.eraseIdx b).length = A.length - 1 := by
    rw [List.length_eraseIdx]
    simp [hb]
  have ha : a < (A.eraseIdx b).length := by omega
  have h2 : (A.eraseIdx b ++ [x]).eraseIdx a = (A.eraseIdx b).eraseIdx a ++ [x] :=
    List.eraseIdx_append_of_lt_length ha [x]
  have hl2 : ((A.eraseIdx b).eraseIdx a).length = A.length - 2 := by
    rw [List.length_eraseIdx]
    simp [ha]
    omega
  exact ⟨by rw [h1, h2], hl2⟩

lemma getD_erase2 {α : Type _} (d : α) (A : List α) (a b j : Nat)
    (hab : a < b) (hb : b < A.length) (hj : j < A.length)
    (hja : j ≠ a) (hjb : j ≠ b) :
    shift2 a b A.length j < A.length - 2
    ∧ ((A.eraseIdx b).eraseIdx a).getD (shift2 a b A.length j) d = A.getD j d := by
  have hl1 : (A.eraseIdx b).length = A.length - 1 := by
    rw [List.length_eraseIdx]
    simp [hb]
  by_cases h1 : j < a
  · have hs : shift2 a b A.length j = j := by
      unfold shift2
      rw [if_neg (by omega), if_pos h1]
    refine ⟨by omega, ?_⟩
    rw [hs, getD_eraseIdx_lt d _ a j h1, getD_eraseIdx_lt d _ b j (by omega)]
  · by_cases h2 : j < b
    · have hs : shift2 a b A.length j = j - 1 := by
        unfold shift2
        rw [if_neg (by omega), if_neg h1, if_pos h2]
      refine ⟨by omega, ?_⟩
      rw [hs, getD_eraseIdx_ge d _ a (j - 1) (by omega) (by omega)]
      rw [show j - 1 + 1 = j by omega]
      rw [getD_eraseIdx_lt d _ b j h2]
    · have hs : shift2 a b A.length j = j - 2 := by
        unfold shift2
        rw [if_neg (by omega), if_neg h1, if_neg h2]
      refine ⟨by omega, ?_⟩
      rw [hs, getD_eraseIdx_ge d _ a (j - 2) (by omega) (by omega)]
      rw [show j - 2 + 1 = j - 1 by omega]
      rw [getD_eraseIdx_ge d _ b (j - 1) (by omega) (by omega)]
      rw [show j - 1 + 1 = j by omega]

lemma getD_erase1 {α : Type _} (d : α) (A : List α) (t j : Nat)
    (ht : t < A.length) (hj : j < A.length) (hjt : j ≠ t) :
    shift1 t A.length j < A.length - 1
    ∧ (A.eraseIdx t).getD (shift1 t A.length j) d = A.getD j d := by
  by_cases h1 : j < t
  · have hs : shift1 t A.length j = j := by
      unfold shift1
      rw [if_neg (by omega), if_pos h1]
    exact ⟨by omega, by rw [hs, getD_eraseIdx_lt d _ t j h1]⟩
  · have hs : shift1 t A.length j = j - 1 := by
      unfold shift1
      rw [if_neg (by omega), if_neg h1]
    refine ⟨by omega, ?_⟩
    rw [hs, getD_eraseIdx_ge d _ t (j - 1) (by omega) (by omega)]
    rw [show j - 1 + 1 = j by omega]

/-- Merging the two adjacent tensors at `a < b` into `w` preserves
connectivity, provided any label linking a participant to a non-participant
survives into `w`. -/
lemma conn_merge (v : List (List Label)) (w : List Label) (a b : Nat)
    (hab : a < b) (hb : b < v.length)
    (hkeep : ∀ e j, j < v.length → j ≠ a → j ≠ b → e ∈ v.getD j [] →
        (e ∈ v.getD a [] ∨ e ∈ v.getD b []) → e ∈ w)
    (hconn : Conn v) :
    Conn (((v ++ [w]).eraseIdx b).eraseIdx a) := by
  obtain ⟨hv2, hrest⟩ := erase2_append v w a b hab hb
  have hn2 : 2 ≤ v.length := by omega
  have hlen2 : (((v ++ [w]).eraseIdx b).eraseIdx a).length = v.length - 1 := by
    rw [hv2, List.length_append, hrest]
    simp
    omega
  have hget_ab : (((v ++ [w]).eraseIdx b).eraseIdx a).getD (v.length - 2) [] = w := by
    rw [hv2, show v.length - 2 = ((v.eraseIdx b).eraseIdx a).length by omega]
    exact getD_append_len [] _ w
  have hget_other : ∀ j, j < v.length → j ≠ a → j ≠ b →
      shift2 a b v.length j < v.length - 2
      ∧ (((v ++ [w]).eraseIdx b).eraseIdx a).getD (shift2 a b v.length j) []
          = v.getD j [] := by
    intro j hj hja hjb
    obtain ⟨hlt, hg⟩ := getD_erase2 [] v a b j hab hb hj hja hjb
    refine ⟨hlt, ?_⟩
    rw [hv2, getD_append_lt [] _ _ _ (by omega)]
    exact hg
  have hshift_ab : shift2 a b v.length a = v.length - 2 ∧ shift2 a b v.length b = v.length - 2 := by
    constructor <;> (unfold shift2; rw [if_pos (by omega)])
  have hadj : ∀ i j, adjacent v i j →
      adjacent (((v ++ [w]).eraseIdx b).eraseIdx a) (shift2 a b v.length i) (shift2 a b v.length j)
      ∨ shift2 a b v.length i = shift2 a b v.length j := by
    rintro i j ⟨hi, hj, hij, e, hei, hej⟩
    by_cases hiab : i = a ∨ i = b
    · by_cases hjab : j = a ∨ j = b
      · right
        have h1 : shift2 a b v.length i = v.length - 2 := by
          unfold shift2
          rw [if_pos hiab]
        have h2 : shift2 a b v.length j = v.length - 2 := by
          unfold shift2
          rw [if_pos hjab]
        rw [h1, h2]
      · left
        push_neg at hjab
        have h1 : shift2 a b v.length i = v.length - 2 := by
          unfold shift2
          rw [if_pos hiab]
        obtain ⟨hlt, hg⟩ := hget_other j hj hjab.1 hjab.2
        have hew : e ∈ w := by
          apply hkeep e j hj hjab.1 hjab.2 hej
          rcases hiab with rfl | rfl
          · exact .inl hei
          · exact .inr hei
        refine ⟨by omega, by omega, by omega, e, ?_, ?_⟩
        · rw [h1, hget_ab]
          exact hew
        · rw [hg]
          exact hej
    · by_cases hjab : j = a ∨ j = b
      · left
        push_neg at hiab
        have h2 : shift2 a b v.length j = v.length - 2 := by
          unfold shift2
          rw [if_pos hjab]
        obtain ⟨hlt, hg⟩ := hget_other i hi hiab.1 hiab.2
        have hew : e ∈ w := by
          apply hkeep e i hi hiab.1 hiab.2 hei
          rcases hjab with rfl | rfl
          · exact .inl hej
          · exact .inr hej
        refine ⟨by omega, by omega, by omega, e, ?_, ?_⟩
        · rw [hg]
          exact hei
        · rw [h2, hget_ab]
          exact hew
      · left
        push_neg at hiab
        push_neg at hjab
        obtain ⟨hlti, hgi⟩ := hget_other i hi hiab.1 hiab.2
        obtain ⟨hltj, hgj⟩ := hget_other j hj hjab.1 hjab.2
        have e1 : shift2 a b v.length i
            = if i < a then i else if i < b then i - 1 else i - 2 := by
          unfold shift2
          rw [if_neg (by omega)]
        have e2 : shift2 a b v.length j
            = if j < a then j else if j < b then j - 1 else j - 2 := by
          unfold shift2
          rw [if_neg (by omega)]
        have hne : shift2 a b v.length i ≠ shift2 a b v.length j := by
          rw [e1, e2]
          split_ifs <;> omega
        refine ⟨by omega, by omega, hne, e, ?_, ?_⟩
        · rw [hgi]
          exact hei
        · rw [hgj]
          exact hej
  intro p q hp hq
  rw [hlen2] at hp hq
  have hfg : ∀ p, p < v.length - 1 → unshift2 a b v.length p < v.length ∧ shift2 a b v.length (unshift2 a b v.length p) = p := by
    intro p hp
    unfold unshift2 shift2
    by_cases h1 : p = v.length - 2
    · rw [if_pos h1, if_pos (by omega)]
      omega
    · rw [if_neg h1]
      by_cases h2 : p < a
      · rw [if_pos h2, if_neg (by omega), if_pos h2]
        omega
      · rw [if_neg h2]
        by_cases h3 : p < b - 1
        · rw [if_pos h3, if_neg (by omega), if_neg (by omega), if_pos (by omega)]
          omega
        · rw [if_neg h3, if_neg (by omega), if_neg (by omega), if_neg (by omega)]
          omega
  obtain ⟨hgp, hfgp⟩ := hfg p hp
  obtain ⟨hgq, hfgq⟩ := hfg q hq
  have := reach_map (shift2 a b v.length) hadj _ _ (hconn (unshift2 a b v.length p) (unshift2 a b v.length q) hgp hgq)
  rw [hfgp, hfgq] at this
  exact this

/-- Tracing the tensor at `t` into `w` preserves connectivity, provided
any label linking `t` to another tensor survives into `w`. -/
lemma conn_trace_step (v : List (List Label)) (w : List Label) (t : Nat)
    (ht : t < v.length)
    (hkeep : ∀ e j, j < v.length → j ≠ t → e ∈ v.getD j [] →
        e ∈ v.getD t [] → e ∈ w)
    (hconn : Conn v) :
    Conn ((v ++ [w]).eraseIdx t) := by
  have hv2 : (v ++ [w]).eraseIdx t = v.eraseIdx t ++ [w] :=
    List.eraseIdx_append_of_lt_length ht [w]
  have hrest : (v.eraseIdx t).length = v.length - 1 := by
    rw [List.length_eraseIdx]
    simp [ht]
  have hlen2 : ((v ++ [w]).eraseIdx t).length = v.length := by
    rw [hv2, List.length_append, hrest]
    simp
    omega
  have hget_t : ((v ++ [w]).eraseIdx t).getD (v.length - 1) [] = w := by
    rw [hv2, show v.length - 1 = (v.eraseIdx t).length by omega]
    exact getD_append_len [] _ w
  have hget_other : ∀ j, j < v.length → j ≠ t →
      shift1 t v.length j < v.length - 1
      ∧ ((v ++ [w]).eraseIdx t).getD (shift1 t v.length j) [] = v.getD j [] := by
    intro j hj hjt
    obtain ⟨hlt, hg⟩ := getD_erase1 [] v t j ht hj hjt
    refine ⟨hlt, ?_⟩
    rw [hv2, getD_append_lt [] _ _ _ (by omega)]
    exact hg
  have hadj : ∀ i j, adjacent v i j →
      adjacent ((v ++ [w]).eraseIdx t) (shift1 t v.length i) (shift1 t v.length j)
      ∨ shift1 t v.length i = shift1 t v.length j := by
    rintro i j ⟨hi, hj, hij, e, hei, hej⟩
    by_cases hit : i = t
    · subst hit
      left
      have h1 : shift1 i v.length i = v.length - 1 := by
        unfold shift1
        rw [if_pos rfl]
      obtain ⟨hlt, hg⟩ := hget_other j hj (fun h => hij h.symm)
      have hew : e ∈ w := hkeep e j hj (fun h => hij h.symm) hej hei
      refine ⟨by omega, by omega, by omega, e, ?_, ?_⟩
      · rw [h1, hget_t]
        exact hew
      · rw [hg]
        exact hej
    · by_cases hjt : j = t
      · subst hjt
        left
        have h2 : shift1 j v.length j = v.length - 1 := by
          unfold shift1
          rw [if_pos rfl]
        obtain ⟨hlt, hg⟩ := hget_other i hi hit
        have hew : e ∈ w := hkeep e i hi hit hei hej
        refine ⟨by omega, by omega, by omega, e, ?_, ?_⟩
        · rw [hg]
          exact hei
        · rw [h2, hget_t]
          exact hew
      · left
        obtain ⟨hlti, hgi⟩ := hget_other i hi hit
        obtain ⟨hltj, hgj⟩ := hget_other j hj hjt
        have e1 : shift1 t v.length i = if i < t then i else i - 1 := by
          unfold shift1
          rw [if_neg hit]
        have e2 : shift1 t v.length j = if j < t then j else j - 1 := by
          unfold shift1
          rw [if_neg hjt]
        have hne : shift1 t v.length i ≠ shift1 t v.length j := by
          rw [e1, e2]
          split_ifs <;> omega
        refine ⟨by omega, by omega, hne, e, ?_, ?_⟩
        · rw [hgi]
          exact hei
        · rw [hgj]
          exact hej
  intro p q hp hq
  rw [hlen2] at hp hq
  have hfg : ∀ p, p < v.length → unshift1 t v.length p < v.length ∧ shift1 t v.length (unshift1 t v.length p) = p := by
    intro p hp
    unfold unshift1 shift1
    by_cases h1 : p = v.length - 1
    · rw [if_pos h1, if_pos rfl]
      omega
    · rw [if_neg h1]
      by_cases h2 : p < t
      · rw [if_pos h2, if_neg (by omega), if_pos h2]
        omega
      · rw [if_neg h2, if_neg (by omega), if_neg (by omega)]
        omega
  obtain ⟨hgp, hfgp⟩ := hfg p hp
  obtain ⟨hgq, hfgq⟩ := hfg q hq
  have := reach_map (shift1 t v.length) hadj _ _ (hconn (unshift1 t v.length p) (unshift1 t v.length q) hgp hgq)
  rw [hfgp, hfgq] at this
  exact this

/-! Counting lemmas relating per-list membership, flattened counts, and the
scheduler's list surgery. -/

lemma countP_le_count_flatten (e : Label) :
    ∀ v : List (List Label),
      v.countP (fun l => e ∈ l) ≤ v.flatten.count e
  | [] => by simp
  | l :: ls => by
    have ih := countP_le_count_flatten e ls
    rw [List.countP_cons, List.flatten_cons, List.count_append]
    by_cases hl : e ∈ l
    · have h1 : 1 ≤ l.count e := List.count_pos_iff.mpr hl
      have hd : (if decide (e ∈ l) = true then 1 else 0) = 1 := by simp [hl]
      omega
    · have hd : (if decide (e ∈ l) = true then 1 else 0) = 0 := by simp [hl]
      omega

lemma count_in_unique_list (e : Label) :
    ∀ (v : List (List Label)) (i : Nat),
      v.countP (fun l => e ∈ l) = 1 → i < v.length → e ∈ v.getD i [] →
      (v.getD i []).count e = v.flatten.count e
  | [], _, _, hi, _ => by simp at hi
  | l :: ls, 0, hP, _, hmem => by
    rw [List.countP_cons] at hP
    simp only [List.getD_cons_zero] at hmem ⊢
    have hd : (if decide (e ∈ l) = true then 1 else 0) = 1 := by simp [hmem]
    have hP0 : ls.countP (fun l => e ∈ l) = 0 := by omega
    have : e ∉ ls.flatten := by
      rw [List.mem_flatten]
      rintro ⟨l', hl', hel'⟩
      have : 0 < ls.countP (fun l => e ∈ l) :=
        List.countP_pos_iff.mpr ⟨l', hl', by simpa using hel'⟩
      omega
    rw [List.flatten_cons, List.count_append, List.count_eq_zero.mpr this]
    omega
  | l :: ls, i + 1, hP, hi, hmem => by
    simp only [List.getD_cons_succ] at hmem ⊢
    rw [List.countP_cons] at hP
    have hpos : 0 < ls.countP (fun l => e ∈ l) := by
      apply List.countP_pos_iff.mpr
      refine ⟨ls.getD i [], getD_mem_of_lt _ _ _ (by simpa using hi), by simpa using hmem⟩
    have hl : e ∉ l := by
      intro hel
      have hd : (if decide (e ∈ l) = true then 1 else 0) = 1 := by simp [hel]
      omega
    have hP' : ls.countP (fun l => e ∈ l) = 1 := by
      have hd : (if decide (e ∈ l) = true then 1 else 0) = 0 := by simp [hl]
      omega
    rw [List.flatten_cons, List.count_append, List.count_eq_zero.mpr hl]
    rw [count_in_unique_list e ls i hP' (by simpa using hi) hmem]
    omega

lemma countP_two_exists {α : Type _} (d : α) (p : α → Bool) :
    ∀ l : List α, 2 ≤ l.countP p →
      ∃ i j, i < j ∧ j < l.length ∧ p (l.getD i d) = true ∧ p (l.getD j d) = true
  | [], h => by simp at h
  | x :: xs, h => by
    rw [List.countP_cons] at h
    by_cases hx : p x
    · have h1 : 1 ≤ xs.countP p ∨ 2 ≤ xs.countP p := by
        have hd : (if p x = true then 1 else 0) = 1 := by simp [hx]
        omega
      have hex : ∃ k, k < xs.length ∧ p (xs.getD k d) = true := by
        have hpos : 0 < xs.countP p := by
          rcases h1 with h1 | h1 <;> omega
        obtain ⟨a, ha, hpa⟩ := List.countP_pos_iff.mp hpos
        obtain ⟨k, hk, hak⟩ := List.mem_iff_getElem.mp ha
        exact ⟨k, hk, by rw [List.getD_eq_getElem _ _ hk, hak]; exact hpa⟩
      obtain ⟨k, hk, hpk⟩ := hex
      exact ⟨0, k + 1, by omega, by simpa using hk, by simpa using hx,
        by simpa using hpk⟩
    · have h2 : 2 ≤ xs.countP p := by
        have hd : (if p x = true then 1 else 0) = 0 := by simp [hx]
        omega
      obtain ⟨i, j, hij, hj, hpi, hpj⟩ := countP_two_exists d p xs h2
      exact ⟨i + 1, j + 1, by omega, by simpa using hj, by simpa using hpi,
        by simpa using hpj⟩

lemma mem_get_icon (v : List (List Label)) (a b : Nat) (e : Label) :
    e ∈ get_icon v [a, b] ↔ e ∈ v.getD a [] ∧ e ∈ v.getD b [] := by
  show e ∈ ((v.getD a []).filter (fun x => x ∈ v.getD b [])).dedup ↔ _
  rw [List.mem_dedup, List.mem_filter]
  simp

lemma perm_decomp2 (v : List (List Label)) (a b : Nat) (hab : a < b)
    (hb : b < v.length) :
    v.Perm (v.getD b [] :: v.getD a [] :: (v.eraseIdx b).eraseIdx a) := by
  have h1 := perm_getD_cons_eraseIdx ([] : List Label) v b hb
  have hl1 : (v.eraseIdx b).length = v.length - 1 := by
    rw [List.length_eraseIdx]
    simp [hb]
  have h2 := perm_getD_cons_eraseIdx ([] : List Label) (v.eraseIdx b) a (by omega)
  have h3 : (v.eraseIdx b).getD a [] = v.getD a [] :=
    getD_eraseIdx_lt [] v b a hab
  rw [h3] at h2
  exact h1.trans (h2.cons _)

lemma count_split2 (e : Label) (v : List (List Label)) (a b : Nat) (hab : a < b)
    (hb : b < v.length) :
    v.flatten.count e
      = (v.getD a []).count e + (v.getD b []).count e
        + ((v.eraseIdx b).eraseIdx a).flatten.count e := by
  have h := (perm_decomp2 v a b hab hb).flatten
  rw [h.count_eq, List.flatten_cons, List.flatten_cons, List.count_append,
    List.count_append]
  omega

lemma countP_split2 (p : List Label → Bool) (v : List (List Label)) (a b : Nat)
    (hab : a < b) (hb : b < v.length) :
    v.countP p
      = (if p (v.getD a []) then 1 else 0) + (if p (v.getD b []) then 1 else 0)
        + ((v.eraseIdx b).eraseIdx a).countP p := by
  rw [(perm_decomp2 v a b hab hb).countP_eq p, List.countP_cons, List.countP_cons]
  omega

lemma count_split1 (e : Label) (v : List (List Label)) (t : Nat)
    (ht : t < v.length) :
    v.flatten.count e
      = (v.getD t []).count e + (v.eraseIdx t).flatten.count e := by
  have h := (perm_getD_cons_eraseIdx ([] : List Label) v t ht).flatten
  rw [h.count_eq, List.flatten_cons, List.count_append]

lemma countP_split1 (p : List Label → Bool) (v : List (List Label)) (t : Nat)
    (ht : t < v.length) :
    v.countP p
      = (if p (v.getD t []) then 1 else 0) + (v.eraseIdx t).countP p := by
  rw [(perm_getD_cons_eraseIdx ([] : List Label) v t ht).countP_eq p,
    List.countP_cons]
  omega

lemma count_append_end (e : Label) (rest : List (List Label)) (w : List Label) :
    (rest ++ [w]).flatten.count e = rest.flatten.count e + w.count e := by
  rw [List.flatten_append, List.count_append]
  simp

lemma countP_append_end (p : List Label → Bool) (rest : List (List Label))
    (w : List Label) :
    (rest ++ [w]).countP p = rest.countP p + (if p w then 1 else 0) := by
  rw [List.countP_append]
  simp [List.countP_cons]

lemma count_filter_not_mem (e : Label) (icon : List Label) (l : List Label)
    (he : e ∉ icon) :
    (l.filter (fun x => x ∉ icon)).count e = l.count e :=
  List.count_filter (by simpa using he)

lemma count_filter_mem (e : Label) (icon : List Label) (l : List Label)
    (he : e ∈ icon) :
    (l.filter (fun x => x ∉ icon)).count e = 0 := by
  rw [List.count_eq_zero]
  intro hmem
  rw [List.mem_filter] at hmem
  exact absurd he (by simpa using hmem.2)

lemma get_tcon_succeeds (v : List (List Label)) (e : Label)
    (hcnt : v.flatten.count e = 2) :
    ∃ tcon, get_tcon v e = .ok tcon := by
  rcases hg : get_tcon v e with err | tcon
  · exfalso
    have hbad := (get_tcon_spec v e).1.mp ⟨err, hg⟩
    have hle : v.countP (fun l => e ∈ l) ≤ v.flatten.count e :=
      countP_le_count_flatten e v
    have hpos : 0 < v.countP (fun l => e ∈ l) := by
      apply List.countP_pos_iff.mpr
      have hmem : e ∈ v.flatten := by
        have : 0 < v.flatten.count e := by omega
        exact List.count_pos_iff.mp this
      obtain ⟨l, hl, hel⟩ := List.mem_flatten.mp hmem
      exact ⟨l, hl, by simpa using hel⟩
    rcases hbad with h0 | h2 | ⟨h1, i, hi, hmem, hcnt'⟩
    · omega
    · omega
    · exact hcnt' (by rw [count_in_unique_list e v i h1 hi hmem]; exact hcnt)
  · exact ⟨tcon, rfl⟩

lemma ncon_step_succeeds (L : List Tensor) (v : List (List Label)) (e : Label)
    (h : ∃ tcon, get_tcon v e = .ok tcon) :
    ∃ L2 v2 icon bc, ncon_step L v e = .ok (L2, v2, icon, bc) := by
  obtain ⟨tcon, htcon⟩ := h
  unfold ncon_step
  rw [htcon]
  exact ⟨_, _, _, _, rfl⟩

lemma renew_order_cons_mem (e : Label) (rest icon : List Label) (h : e ∈ icon) :
    renew_order (e :: rest) icon = renew_order rest icon := by
  show List.filter _ (e :: rest) = _
  rw [List.filter_cons, if_neg (by simpa using h)]
  rfl

lemma mem_renew_order (e' : Label) (order icon : List Label) :
    e' ∈ renew_order order icon ↔ e' ∈ order ∧ e' ∉ icon := by
  simp [renew_order, List.mem_filter]

/-- A connected network with no inter-tensor shared labels has exactly one
tensor. -/
lemma conn_no_shared_single (v : List (List Label)) (hne : v ≠ []) (hconn : Conn v)
    (hshared : ∀ e i j, i < j → j < v.length →
      e ∈ v.getD i [] → e ∈ v.getD j [] → False) :
    v.length = 1 := by
  by_contra hlen
  have h1 : 0 < v.length := List.length_pos.mpr hne
  have h2 : 2 ≤ v.length := by omega
  have hreach := hconn 0 1 (by omega) (by omega)
  rcases hreach.cases_head with h01 | ⟨c, hadj, _⟩
  · omega
  · obtain ⟨h0, hc, hne01, e, he0, hec⟩ := hadj
    exact hshared e 0 c (by omega) hc he0 hec

/-- The scheduler loop, run with fuel `order.length`, on a connected
nonempty network in which every `order` label occurs exactly twice and
every label shared by two distinct leg lists is in `order`, succeeds and
ends with exactly one tensor. -/
lemma ncon_loop_main :
    ∀ (fuel : Nat) (L : List Tensor) (v : List (List Label)) (order : List Label),
      order.length ≤ fuel →
      L.length = v.length → v ≠ [] → Conn v →
      (∀ e ∈ order, v.flatten.count e = 2) →
      (∀ e i j, i < j → j < v.length → e ∈ v.getD i [] → e ∈ v.getD j [] →
          e ∈ order) →
      ∃ L' v' evs, ncon_loop fuel L v order = .ok (L', v', evs)
        ∧ v'.length = 1 ∧ L'.length = 1 := by
  intro fuel
  induction fuel with
  | zero =>
    intro L v order hfuel hlen hne hconn hcount hshared
    have horder : order = [] := List.length_eq_zero.mp (by omega)
    subst horder
    refine ⟨L, v, [], rfl, ?_, ?_⟩
    · exact conn_no_shared_single v hne hconn
        (fun e i j hij hj h1 h2 =>
          by simpa using hshared e i j hij hj h1 h2)
    · rw [hlen]
      exact conn_no_shared_single v hne hconn
        (fun e i j hij hj h1 h2 =>
          by simpa using hshared e i j hij hj h1 h2)
  | succ m ih =>
    intro L v order hfuel hlen hne hconn hcount hshared
    match order with
    | [] =>
      refine ⟨L, v, [], rfl, ?_, ?_⟩
      · exact conn_no_shared_single v hne hconn
          (fun e i j hij hj h1 h2 =>
            by simpa using hshared e i j hij hj h1 h2)
      · rw [hlen]
        exact conn_no_shared_single v hne hconn
          (fun e i j hij hj h1 h2 =>
            by simpa using hshared e i j hij hj h1 h2)
    | e :: rest =>
      have hcnt_e : v.flatten.count e = 2 := hcount e (by simp)
      obtain ⟨L2, v2, icon, bc, hstep⟩ :=
        ncon_step_succeeds L v e (get_tcon_succeeds v e hcnt_e)
      have hrun_eq : ncon_loop (m + 1) L v (e :: rest)
          = (match ncon_step L v e with
             | .error err => .error err
             | .ok (L2, v2, icon, bc) =>
               match ncon_loop m L2 v2 (renew_order (e :: rest) icon) with
               | .error err => .error err
               | .ok (L3, v3, evs) => .ok (L3, v3, bc :: evs)) := rfl
      rcases ncon_step_char L v e L2 v2 icon bc hstep with
        ⟨t, htcon, ht, hmemt, hcntt, hicon, hv2, hL2, hbc⟩ |
        ⟨a, b, htcon, hab, hb, hma, hmb, hicon, hv2, hL2, hbc⟩
      · -- self-trace of tensor t over label e
        set w := find_newv v [t] [e] with hwdef
        have hw : w = (v.getD t []).filter (fun x => x ∉ [e]) := rfl
        have hv2' : v2 = v.eraseIdx t ++ [w] := by
          rw [hv2, List.eraseIdx_append_of_lt_length ht]
        have hrest_cnt : (v.eraseIdx t).flatten.count e = 0 := by
          have := count_split1 e v t ht
          omega
        have hv2len : v2.length = v.length := by
          rw [hv2', List.length_append, List.length_eraseIdx]
          simp [ht]
          omega
        have hL2len : L2.length = L.length := by
          rw [hL2, List.length_eraseIdx]
          simp only [List.length_append, List.length_cons, List.length_nil]
          have htL : t < L.length + (0 + 1) := by omega
          simp [htL]
        have horder2 : renew_order (e :: rest) [e] = renew_order rest [e] :=
          renew_order_cons_mem e rest [e] (by simp)
        have horder2len : (renew_order rest [e]).length ≤ m := by
          have h1 : (renew_order rest [e]).length ≤ rest.length :=
            List.length_filter_le _ _
          have h2 : rest.length ≤ m := by
            simp only [List.length_cons] at hfuel
            omega
          omega
        -- counts in the new state
        have hv2count : ∀ e', v2.flatten.count e'
            = (v.eraseIdx t).flatten.count e' + w.count e' := by
          intro e'
          rw [hv2', count_append_end]
        have hcount2 : ∀ e' ∈ renew_order rest [e],
            v2.flatten.count e' = 2 := by
          intro e' he'
          obtain ⟨hmem, hnot⟩ := (mem_renew_order e' rest [e]).mp he'
          have hne' : e' ≠ e := by simpa using hnot
          have hw_cnt : w.count e' = (v.getD t []).count e' := by
            rw [hw]
            exact count_filter_not_mem e' [e] _ (by simpa using hne')
          have := count_split1 e' v t ht
          have htot : v.flatten.count e' = 2 := hcount e' (by simp [hmem])
          rw [hv2count e', hw_cnt]
          omega
        -- shared labels in the new state
        have hsharedP : ∀ e', 2 ≤ v.countP (fun l => e' ∈ l) → e' ∈ e :: rest := by
          intro e' hP
          obtain ⟨i, j, hij, hj, hpi, hpj⟩ :=
            countP_two_exists ([] : List Label) (fun l => e' ∈ l) v hP
          exact hshared e' i j hij hj (by simpa using hpi) (by simpa using hpj)
        have hshared2 : ∀ e' i j, i < j → j < v2.length →
            e' ∈ v2.getD i [] → e' ∈ v2.getD j [] →
            e' ∈ renew_order rest [e] := by
          intro e' i j hij hj h1 h2
          have hP2 : 2 ≤ v2.countP (fun l => e' ∈ l) :=
            two_le_countP_of_two_pos ([] : List Label) (fun l => e' ∈ l) v2 i j
              hij hj (by simpa using h1) (by simpa using h2)
          by_cases hee : e' = e
          · exfalso
            subst hee
            have hwz : w.count e' = 0 := by
              rw [hw]
              exact count_filter_mem e' [e'] _ (by simp)
            have hv2z : v2.flatten.count e' = 0 := by
              rw [hv2count e', hwz]
              omega
            have := countP_le_count_flatten e' v2
            omega
          · have hw_mem : (e' ∈ w) ↔ e' ∈ v.getD t [] := by
              rw [hw, List.mem_filter]
              simp [hee]
            have hPsplit : v2.countP (fun l => e' ∈ l)
                = (v.eraseIdx t).countP (fun l => e' ∈ l)
                  + (if e' ∈ w then 1 else 0) := by
              rw [hv2']
              have := countP_append_end (fun l => e' ∈ l) (v.eraseIdx t) w
              simpa using this
            have hPv : v.countP (fun l => e' ∈ l)
                = (if e' ∈ v.getD t [] then 1 else 0)
                  + (v.eraseIdx t).countP (fun l => e' ∈ l) := by
              have := countP_split1 (fun l => e' ∈ l) v t ht
              simpa using this
            have hPle : 2 ≤ v.countP (fun l => e' ∈ l) := by
              by_cases hwm : e' ∈ w
              · have h1' : e' ∈ v.getD t [] := hw_mem.mp hwm
                rw [hPsplit, if_pos hwm] at hP2
                rw [hPv, if_pos h1']
                omega
              · rw [hPsplit, if_neg hwm] at hP2
                rw [hPv]
                split_ifs <;> omega
            have := hsharedP e' hPle
            rw [mem_renew_order]
            rcases List.mem_cons.mp this with rfl | hmem
            · exact absurd rfl hee
            · exact ⟨hmem, by simpa using hee⟩
        -- connectivity of the new state
        have hconn2 : Conn v2 := by
          rw [hv2]
          apply conn_trace_step v w t ht _ hconn
          intro e' j hj hjt hej het
          rw [hw, List.mem_filter]
          refine ⟨het, ?_⟩
          suffices he' : e' ≠ e by simpa using he'
          rintro rfl
          obtain ⟨hlt, hg⟩ := getD_erase1 ([] : List Label) v t j ht hj hjt
          have hmem_list : (v.eraseIdx t).getD (shift1 t v.length j) []
              ∈ v.eraseIdx t := by
            apply getD_mem_of_lt
            rw [List.length_eraseIdx]
            simp [ht]
            omega
          have : e' ∈ (v.eraseIdx t).flatten := by
            rw [List.mem_flatten]
            exact ⟨_, hmem_list, by rw [hg]; exact hej⟩
          have := List.count_pos_iff.mpr this
          omega
        have hne2 : v2 ≠ [] := by
          have : 0 < v2.length := by omega
          exact List.length_pos.mp this
        obtain ⟨L', v', evs, hloop, hv'1, hL'1⟩ :=
          ih L2 v2 (renew_order rest [e]) horder2len (by omega) hne2 hconn2
            hcount2 hshared2
        refine ⟨L', v', bc :: evs, ?_, hv'1, hL'1⟩
        have hmatch : ncon_loop (m + 1) L v (e :: rest)
            = (match ncon_loop m L2 v2 (renew_order (e :: rest) icon) with
               | .error err => .error err
               | .ok (L3, v3, evs) => .ok (L3, v3, bc :: evs)) := by
          rw [hrun_eq, hstep]
        rw [hmatch, hicon, horder2, hloop]
      · -- pairwise contraction of tensors a < b
        have hicon_mem : ∀ e', e' ∈ icon ↔
            e' ∈ v.getD a [] ∧ e' ∈ v.getD b [] := by
          intro e'
          rw [hicon]
          exact mem_get_icon v a b e'
        have he_icon : e ∈ icon := (hicon_mem e).mpr ⟨hma, hmb⟩
        have hicon_order : ∀ e' ∈ icon, e' ∈ e :: rest := by
          intro e' he'
          obtain ⟨h1, h2⟩ := (hicon_mem e').mp he'
          exact hshared e' a b hab hb h1 h2
        set w := find_newv v [a, b] (get_icon v [a, b]) with hwdef
        have hw : w = ((v.getD a []) ++ (v.getD b [])).filter
            (fun x => x ∉ get_icon v [a, b]) := rfl
        obtain ⟨hv2app, hrest_len⟩ := erase2_append v w a b hab hb
        have hv2' : v2 = (v.eraseIdx b).eraseIdx a ++ [w] := by
          rw [hv2, hv2app]
        have hicon_counts : ∀ e' ∈ icon,
            (v.getD a []).count e' = 1 ∧ (v.getD b []).count e' = 1
              ∧ ((v.eraseIdx b).eraseIdx a).flatten.count e' = 0 := by
          intro e' he'
          obtain ⟨h1, h2⟩ := (hicon_mem e').mp he'
          have hca : 1 ≤ (v.getD a []).count e' := List.count_pos_iff.mpr h1
          have hcb : 1 ≤ (v.getD b []).count e' := List.count_pos_iff.mpr h2
          have htot : v.flatten.count e' = 2 :=
            hcount e' (hicon_order e' he')
          have := count_split2 e' v a b hab hb
          omega
        have hv2len : v2.length = v.length - 1 := by
          rw [hv2', List.length_append, hrest_len]
          simp
          omega
        have hL2len : L2.length = L.length - 1 := by
          rw [hL2]
          have hbL : b < L.length := by omega
          obtain ⟨_, hrL⟩ := erase2_append L
            (con (L.getD a default) (L.getD b default)
              (get_pos v [a, b] (get_icon v [a, b])).1
              (get_pos v [a, b] (get_icon v [a, b])).2) a b hab hbL
          rw [List.eraseIdx_append_of_lt_length hbL,
            List.eraseIdx_append_of_lt_length (by
              rw [List.length_eraseIdx]
              simp [hbL]
              omega),
            List.length_append, hrL]
          simp
          omega
        have horder2 : renew_order (e :: rest) icon = renew_order rest icon :=
          renew_order_cons_mem e rest icon he_icon
        have horder2len : (renew_order rest icon).length ≤ m := by
          have h1 : (renew_order rest icon).length ≤ rest.length :=
            List.length_filter_le _ _
          have h2 : rest.length ≤ m := by
            simp only [List.length_cons] at hfuel
            omega
          omega
        have hv2count : ∀ e', v2.flatten.count e'
            = ((v.eraseIdx b).eraseIdx a).flatten.count e' + w.count e' := by
          intro e'
          rw [hv2', count_append_end]
        have hcount2 : ∀ e' ∈ renew_order rest icon,
            v2.flatten.count e' = 2 := by
          intro e' he'
          obtain ⟨hmem, hnot⟩ := (mem_renew_order e' rest icon).mp he'
          have hw_cnt : w.count e'
              = (v.getD a []).count e' + (v.getD b []).count e' := by
            rw [hw, count_filter_not_mem e' _ _ (by rw [← hicon]; exact hnot),
              List.count_append]
          have := count_split2 e' v a b hab hb
          have htot : v.flatten.count e' = 2 := hcount e' (by simp [hmem])
          rw [hv2count e', hw_cnt]
          omega
        have hsharedP : ∀ e', 2 ≤ v.countP (fun l => e' ∈ l) → e' ∈ e :: rest := by
          intro e' hP
          obtain ⟨i, j, hij, hj, hpi, hpj⟩ :=
            countP_two_exists ([] : List Label) (fun l => e' ∈ l) v hP
          exact hshared e' i j hij hj (by simpa using hpi) (by simpa using hpj)
        have hshared2 : ∀ e' i j, i < j → j < v2.length →
            e' ∈ v2.getD i [] → e' ∈ v2.getD j [] →
            e' ∈ renew_order rest icon := by
          intro e' i j hij hj h1 h2
          have hP2 : 2 ≤ v2.countP (fun l => e' ∈ l) :=
            two_le_countP_of_two_pos ([] : List Label) (fun l => e' ∈ l) v2 i j
              hij hj (by simpa using h1) (by simpa using h2)
          by_cases hei : e' ∈ icon
          · exfalso
            obtain ⟨hca, hcb, hcr⟩ := hicon_counts e' hei
            have hwz : w.count e' = 0 := by
              rw [hw]
              exact count_filter_mem e' _ _ (by rw [← hicon]; exact hei)
            have hv2z : v2.flatten.count e' = 0 := by
              rw [hv2count e', hwz]
              omega
            have := countP_le_count_flatten e' v2
            omega
          · have hPsplit : v2.countP (fun l => e' ∈ l)
                = ((v.eraseIdx b).eraseIdx a).countP (fun l => e' ∈ l)
                  + (if e' ∈ w then 1 else 0) := by
              rw [hv2']
              have := countP_append_end (fun l => e' ∈ l)
                ((v.eraseIdx b).eraseIdx a) w
              simpa using this
            have hPv : v.countP (fun l => e' ∈ l)
                = (if e' ∈ v.getD a [] then 1 else 0)
                  + (if e' ∈ v.getD b [] then 1 else 0)
                  + ((v.eraseIdx b).eraseIdx a).countP (fun l => e' ∈ l) := by
              have := countP_split2 (fun l => e' ∈ l) v a b hab hb
              simpa using this
            have hPle : 2 ≤ v.countP (fun l => e' ∈ l) := by
              by_cases hwm : e' ∈ w
              · have h1' : e' ∈ v.getD a [] ∨ e' ∈ v.getD b [] := by
                  rw [hw, List.mem_filter] at hwm
                  exact List.mem_append.mp hwm.1
                rw [hPsplit, if_pos hwm] at hP2
                rw [hPv]
                rcases h1' with h1' | h1'
                · rw [if_pos h1']
                  split_ifs <;> omega
                · rw [if_pos h1']
                  split_ifs <;> omega
              · rw [hPsplit, if_neg hwm] at hP2
                rw [hPv]
                split_ifs <;> omega
            have := hsharedP e' hPle
            rw [mem_renew_order]
            rcases List.mem_cons.mp this with rfl | hmem
            · exact absurd he_icon hei
            · exact ⟨hmem, hei⟩
        have hconn2 : Conn v2 := by
          rw [hv2]
          apply conn_merge v w a b hab hb _ hconn
          intro e' j hj hja hjb hej hab'
          rw [hw, List.mem_filter]
          refine ⟨List.mem_append.mpr hab', ?_⟩
          suffices he' : e' ∉ get_icon v [a, b] by simpa using he'
          intro hei
          obtain ⟨hca, hcb, hcr⟩ := hicon_counts e' (by rw [hicon]; exact hei)
          obtain ⟨hlt, hg⟩ := getD_erase2 ([] : List Label) v a b j hab hb hj hja hjb
          have hmem_list : ((v.eraseIdx b).eraseIdx a).getD (shift2 a b v.length j) []
              ∈ (v.eraseIdx b).eraseIdx a := by
            apply getD_mem_of_lt
            omega
          have : e' ∈ ((v.eraseIdx b).eraseIdx a).flatten := by
            rw [List.mem_flatten]
            exact ⟨_, hmem_list, by rw [hg]; exact hej⟩
          have := List.count_pos_iff.mpr this
          omega
        have hne2 : v2 ≠ [] := by
          have : 0 < v2.length := by omega
          exact List.length_pos.mp this
        obtain ⟨L', v', evs, hloop, hv'1, hL'1⟩ :=
          ih L2 v2 (renew_order rest icon) horder2len (by omega) hne2 hconn2
            hcount2 hshared2
        refine ⟨L', v', bc :: evs, ?_, hv'1, hL'1⟩
        have hmatch : ncon_loop (m + 1) L v (e :: rest)
            = (match ncon_loop m L2 v2 (renew_order (e :: rest) icon) with
               | .error err => .error err
               | .ok (L3, v3, evs) => .ok (L3, v3, bc :: evs)) := by
          rw [hrun_eq, hstep]
        rw [hmatch, horder2, hloop]

/-- **C2 (amended)**: (i) every successful scheduler step contracts a set
`icon` containing the head label `order[0]`, so `renew_order` strictly
shrinks `order` — the loop terminates within `order.length` iterations;
(ii) if additionally every label shared by two distinct leg lists appears
in `order` (which validation alone does not guarantee), a connected
nonempty network in which every order label occurs exactly twice is
reduced to exactly one tensor. -/
theorem scheduler_loop_spec :
    (∀ (L : List Tensor) (v : List (List Label)) (e : Label)
        (L2 : List Tensor) (v2 : List (List Label)) (icon : List Label)
        (bc : BCall) (rest : List Label),
        ncon_step L v e = .ok (L2, v2, icon, bc) →
        e ∈ icon
          ∧ (renew_order (e :: rest) icon).length < (e :: rest).length)
    ∧ (∀ (L : List Tensor) (v : List (List Label)) (order : List Label),
        L.length = v.length → v ≠ [] → Conn v →
        (∀ e ∈ order, v.flatten.count e = 2) →
        (∀ e i j, i < j → j < v.length → e ∈ v.getD i [] → e ∈ v.getD j [] →
            e ∈ order) →
        ∃ L' v' evs, ncon_loop order.length L v order = .ok (L', v', evs)
          ∧ v'.length = 1 ∧ L'.length = 1) := by
  constructor
  · intro L v e L2 v2 icon bc rest hstep
    have hmem : e ∈ icon := by
      rcases ncon_step_char L v e L2 v2 icon bc hstep with
        ⟨t, _, _, _, _, hicon, _, _, _⟩ |
        ⟨a, b, _, _, _, hma, hmb, hicon, _, _, _⟩
      · rw [hicon]
        simp
      · rw [hicon]
        exact (mem_get_icon v a b e).mpr ⟨hma, hmb⟩
    refine ⟨hmem, ?_⟩
    rw [renew_order_cons_mem e rest icon hmem]
    have : (renew_order rest icon).length ≤ rest.length :=
      List.length_filter_le _ _
    simp only [List.length_cons]
    omega
  · intro L v order hlen hne hconn hcount hshared
    exact ncon_loop_main order.length L v order (le_refl _) hlen hne hconn
      hcount hshared

/-- **C2 (counterexample to the claim as stated)**: the input
`L = [A, B]`, `v = [[1], [1]]`, `order = []`, `forder = []` passes
validation, is left unchanged by connectivity repair (the graph is already
connected through the shared label 1), yet the scheduler loop exits
immediately with a network state of two tensors, because the repeated
label 1 is listed in neither `order` nor `forder`. -/
theorem scheduler_loop_two_tensors_cex :
    do_check_indices
        [⟨[2], false, fun _ _ _ => false⟩, ⟨[2], false, fun _ _ _ => false⟩]
        [[.int 1], [.int 1]] [] [] = .ok true
    ∧ connect_graph
        [⟨[2], false, fun _ _ _ => false⟩, ⟨[2], false, fun _ _ _ => false⟩]
        [[.int 1], [.int 1]] []
      = .ok ([⟨[2], false, fun _ _ _ => false⟩, ⟨[2], false, fun _ _ _ => false⟩],
          [[.int 1], [.int 1]], [], [])
    ∧ ncon_loop ([] : List Label).length
        [⟨[2], false, fun _ _ _ => false⟩, ⟨[2], false, fun _ _ _ => false⟩]
        [[.int 1], [.int 1]] []
      = .ok ([⟨[2], false, fun _ _ _ => false⟩, ⟨[2], false, fun _ _ _ => false⟩],
          [[.int 1], [.int 1]], [])
    ∧ ([[Label.int 1], [Label.int 1]] : List (List Label)).length = 2 :=
  ⟨rfl, rfl, rfl, rfl⟩

/-- Applies `scheduler_loop_spec` at a concrete two-tensor contraction,
discharging all hypotheses. -/
theorem scheduler_loop_spec_witness :
    ∃ (L' : List Tensor) (v' : List (List Label)) (evs : List BCall),
      ncon_loop 1
        [⟨[2], false, fun _ _ _ => false⟩, ⟨[2], false, fun _ _ _ => false⟩]
        [[Label.int 1], [Label.int 1]] [Label.int 1] = .ok (L', v', evs)
      ∧ v'.length = 1 ∧ L'.length = 1 := by
  have hadj01 : adjacent [[Label.int 1], [Label.int 1]] 0 1 :=
    ⟨by simp, by simp, by simp, Label.int 1, by simp, by simp⟩
  have hadj10 : adjacent [[Label.int 1], [Label.int 1]] 1 0 :=
    ⟨by simp, by simp, by simp, Label.int 1, by simp, by simp⟩
  have hconn : Conn [[Label.int 1], [Label.int 1]] := by
    intro i j hi hj
    simp only [List.length_cons, List.length_nil] at hi hj
    interval_cases i <;> interval_cases j
    · exact .refl
    · exact .single hadj01
    · exact .single hadj10
    · exact .refl
  have hsh : ∀ (e : Label) (i j : ℕ), i < j →
      j < ([[Label.int 1], [Label.int 1]] : List (List Label)).length →
      e ∈ ([[Label.int 1], [Label.int 1]] : List (List Label)).getD i [] →
      e ∈ ([[Label.int 1], [Label.int 1]] : List (List Label)).getD j [] →
      e ∈ [Label.int 1] := by
    intro e i j hij hj h1 h2
    simp only [List.length_cons, List.length_nil] at hj
    have hj1 : j = 1 := by omega
    have hi0 : i = 0 := by omega
    subst hj1
    subst hi0
    simpa using h1
  exact scheduler_loop_spec.2
    [⟨[2], false, fun _ _ _ => false⟩, ⟨[2], false, fun _ _ _ => false⟩]
    [[Label.int 1], [Label.int 1]] [Label.int 1]
    rfl (by simp) hconn (by decide) hsh

/-! ## C4: `connect_graph` produces a connected network -/

lemma adjacent_symm (v : List (List Label)) {i j : Nat} (h : adjacent v i j) :
    adjacent v j i := by
  obtain ⟨hi, hj, hij, e, hei, hej⟩ := h
  exact ⟨hj, hi, fun hh => hij hh.symm, e, hej, hei⟩

lemma reach_symm (v : List (List Label)) {i j : Nat}
    (h : Relation.ReflTransGen (adjacent v) i j) :
    Relation.ReflTransGen (adjacent v) j i :=
  Relation.ReflTransGen.symmetric (fun _ _ hh => adjacent_symm v hh) h

lemma mem_set_add {s : List Nat} {x y : Nat} (h : y ∈ set_add s x) :
    y ∈ s ∨ y = x := by
  unfold set_add at h
  split_ifs at h with hx
  · exact .inl h
  · rcases List.mem_append.mp h with h | h
    · exact .inl h
    · exact .inr (by simpa using h)

lemma set_add_mem_of_mem {s : List Nat} {x y : Nat} (h : y ∈ s) :
    y ∈ set_add s x := by
  unfold set_add
  split_ifs with hx
  · exact h
  · exact List.mem_append.mpr (.inl h)

lemma set_add_head {s : List Nat} {d : Nat} {l : List Nat} (h : s = d :: l)
    (x : Nat) : ∃ l', set_add s x = d :: l' := by
  unfold set_add
  split_ifs with hx
  · exact ⟨l, h⟩
  · exact ⟨l ++ [x], by rw [h]; rfl⟩

lemma mem_foldl_set_add (visited : List Nat) :
    ∀ (l init : List Nat) (x : Nat),
      x ∈ l.foldl (fun tv j => if j ∈ visited then tv else set_add tv j) init →
      x ∈ init ∨ x ∈ l
  | [], init, x, h => .inl h
  | a :: l, init, x, h => by
    rcases mem_foldl_set_add visited l
        (if a ∈ visited then init else set_add init a) x h with h1 | h1
    · split_ifs at h1 with ha
      · exact .inl h1
      · rcases mem_set_add h1 with h2 | h2
        · exact .inl h2
        · exact .inr (by simp [h2])
    · exact .inr (by simp [h1])

lemma mem_neighbors (v : List (List Label)) (i x : Nat) :
    x ∈ neighbors v i ↔
      x < v.length ∧ ∃ e, e ∈ v.getD x [] ∧ e ∈ v.getD i [] := by
  unfold neighbors
  rw [List.mem_filter, List.mem_range]
  simp [List.any_eq_true]

/-- Everything the inner BFS loop puts into `component` is reachable from
the seed vertex `s` (soundness). -/
lemma bfs_inner_sound (v : List (List Label)) (s : Nat) :
    ∀ (fuel : Nat) (unvisited visited component toVisit : List Nat),
      (∀ x ∈ component, x < v.length ∧ Relation.ReflTransGen (adjacent v) s x) →
      (∀ x ∈ toVisit, x < v.length ∧ Relation.ReflTransGen (adjacent v) s x) →
      ∀ x ∈ (bfs_inner v fuel unvisited visited component toVisit).2.2,
        x < v.length ∧ Relation.ReflTransGen (adjacent v) s x
  | 0, unvisited, visited, component, toVisit, hcomp, _, x, hx => hcomp x hx
  | fuel + 1, unvisited, visited, component, toVisit, hcomp, htv, x, hx => by
    match htv_eq : toVisit with
    | [] =>
      rw [bfs_inner] at hx
      exact hcomp x hx
    | i :: rest =>
      rw [bfs_inner] at hx
      have hi := htv i (by simp)
      refine bfs_inner_sound v s fuel _ _ _ _ ?_ ?_ x hx
      · intro y hy
        rcases mem_set_add hy with hy | rfl
        · exact hcomp y hy
        · exact hi
      · intro y hy
        rcases mem_foldl_set_add _ _ _ _ hy with hy | hy
        · exact htv y (by simp [hy])
        · rw [mem_neighbors] at hy
          obtain ⟨hylt, e, hey, hei⟩ := hy
          by_cases hyi : y = i
          · subst hyi
            exact ⟨hylt, hi.2⟩
          · exact ⟨hylt, hi.2.tail ⟨hi.1, hylt, fun hh => hyi hh.symm, e, hei, hey⟩⟩

/-- The inner loop only removes elements from `unvisited`. -/
lemma bfs_inner_unvisited_subset (v : List (List Label)) :
    ∀ (fuel : Nat) (unvisited visited component toVisit : List Nat),
      ∀ x ∈ (bfs_inner v fuel unvisited visited component toVisit).1,
        x ∈ unvisited
  | 0, unvisited, _, _, _, x, hx => hx
  | fuel + 1, unvisited, visited, component, toVisit, x, hx => by
    match toVisit with
    | [] =>
      rw [bfs_inner] at hx
      exact hx
    | i :: rest =>
      rw [bfs_inner] at hx
      have := bfs_inner_unvisited_subset v fuel _ _ _ _ x hx
      exact List.mem_filter.mp this |>.1

/-- `component` only grows during the inner loop. -/
lemma bfs_inner_component_mono (v : List (List Label)) :
    ∀ (fuel : Nat) (unvisited visited component toVisit : List Nat),
      ∀ x ∈ component,
        x ∈ (bfs_inner v fuel unvisited visited component toVisit).2.2
  | 0, _, _, _, _, _, hx => hx
  | fuel + 1, unvisited, visited, component, toVisit, x, hx => by
    match toVisit with
    | [] =>
      rw [bfs_inner]
      exact hx
    | i :: rest =>
      rw [bfs_inner]
      exact bfs_inner_component_mono v fuel _ _ _ _ x (set_add_mem_of_mem hx)

/-- An element dropped from `unvisited` by the inner loop ends up in the
component. -/
lemma bfs_inner_removed (v : List (List Label)) :
    ∀ (fuel : Nat) (unvisited visited component toVisit : List Nat),
      ∀ x ∈ unvisited,
        x ∈ (bfs_inner v fuel unvisited visited component toVisit).1
        ∨ x ∈ (bfs_inner v fuel unvisited visited component toVisit).2.2
  | 0, _, _, _, _, x, hx => .inl hx
  | fuel + 1, unvisited, visited, component, toVisit, x, hx => by
    match toVisit with
    | [] =>
      rw [bfs_inner]
      exact .inl hx
    | i :: rest =>
      rw [bfs_inner]
      by_cases hxi : x = i
      · subst hxi
        refine .inr (bfs_inner_component_mono v fuel _ _ _ _ x ?_)
        unfold set_add
        split_ifs with hmm
        · exact hmm
        · exact List.mem_append.mpr (.inr (by simp))
      · exact bfs_inner_removed v fuel _ _ _ _ x
          (List.mem_filter.mpr ⟨hx, by simpa using hxi⟩)

/-- The head of a nonempty `component` is preserved by the inner loop. -/
lemma bfs_inner_head (v : List (List Label)) :
    ∀ (fuel : Nat) (unvisited visited component toVisit : List Nat) (d : Nat)
      (l : List Nat), component = d :: l →
      ∃ l', (bfs_inner v fuel unvisited visited component toVisit).2.2 = d :: l'
  | 0, _, _, component, _, d, l, h => ⟨l, h⟩
  | fuel + 1, unvisited, visited, component, toVisit, d, l, h => by
    match toVisit with
    | [] =>
      rw [bfs_inner]
      exact ⟨l, h⟩
    | i :: rest =>
      rw [bfs_inner]
      obtain ⟨l', hl'⟩ := set_add_head h i
      exact bfs_inner_head v fuel _ _ _ _ d l' hl'

/-- With positive fuel, the inner loop seeded at `seed` puts `seed` at the
head of the component it builds. -/
lemma bfs_inner_start (v : List (List Label)) (fuel : Nat) (hf : 0 < fuel)
    (unvisited visited : List Nat) (seed : Nat) :
    ∃ l', (bfs_inner v fuel unvisited visited [] [seed]).2.2 = seed :: l' := by
  match fuel, hf with
  | fuel + 1, _ =>
    rw [bfs_inner]
    exact bfs_inner_head v fuel _ _ _ _ seed [] rfl

/-- The inner loop's final `unvisited` is a sublist of the initial one. -/
lemma bfs_inner_unvisited_sublist (v : List (List Label)) :
    ∀ (fuel : Nat) (unvisited visited component toVisit : List Nat),
      (bfs_inner v fuel unvisited visited component toVisit).1.Sublist unvisited
  | 0, _, _, _, _ => List.Sublist.refl _
  | fuel + 1, unvisited, visited, component, toVisit => by
    match toVisit with
    | [] =>
      rw [bfs_inner]
    | i :: rest =>
      rw [bfs_inner]
      exact (bfs_inner_unvisited_sublist v fuel _ _ _ _).trans
        (List.filter_sublist _)

/-- Components already collected in `acc` survive the outer loop. -/
lemma bfs_components_acc_mono (v : List (List Label)) (innerFuel : Nat) :
    ∀ (fuel : Nat) (unvisited visited : List Nat) (acc : List (List Nat)),
      ∀ comp ∈ acc, comp ∈ bfs_components v innerFuel fuel unvisited visited acc
  | 0, _, _, _, _, hc => hc
  | fuel + 1, unvisited, visited, acc, comp, hc => by
    match unvisited with
    | [] =>
      rw [bfs_components]
      exact hc
    | seed :: unvisited' =>
      rw [bfs_components]
      exact bfs_components_acc_mono v innerFuel fuel _ _ _ comp
        (List.mem_append.mpr (.inl hc))

/-- **Coverage**: with enough outer fuel, every initially unvisited vertex
lands in some collected component. -/
lemma bfs_components_cover (v : List (List Label)) (innerFuel : Nat)
    (hif : 0 < innerFuel) :
    ∀ (fuel : Nat) (unvisited visited : List Nat) (acc : List (List Nat)),
      unvisited.length ≤ fuel →
      ∀ x ∈ unvisited,
        ∃ comp ∈ bfs_components v innerFuel fuel unvisited visited acc, x ∈ comp
  | 0, unvisited, _, _, hfe, x, hx => by
    cases unvisited with
    | nil => cases hx
    | cons a l => simp at hfe
  | fuel + 1, unvisited, visited, acc, hfe, x, hx => by
    match unvisited with
    | [] => cases hx
    | seed :: unvisited' =>
      rw [bfs_components]
      by_cases hxs : x = seed
      · subst hxs
        obtain ⟨l', hl'⟩ := bfs_inner_start v innerFuel hif unvisited' visited x
        refine ⟨(bfs_inner v innerFuel unvisited' visited [] [x]).2.2, ?_, ?_⟩
        · exact bfs_components_acc_mono v innerFuel fuel _ _ _ _
            (List.mem_append.mpr (.inr (by simp)))
        · rw [hl']; simp
      · have hx' : x ∈ unvisited' := by
          rcases List.mem_cons.mp hx with h | h
          · exact absurd h hxs
          · exact h
        rcases bfs_inner_removed v innerFuel unvisited' visited [] [seed] x hx'
          with hrem | hrem
        · have hlen : (bfs_inner v innerFuel unvisited' visited [] [seed]).1.length
              ≤ unvisited'.length :=
            (bfs_inner_unvisited_sublist v innerFuel _ _ _ _).length_le
          exact bfs_components_cover v innerFuel hif fuel _ _ _
            (by simp at hfe; omega) x hrem
        · refine ⟨(bfs_inner v innerFuel unvisited' visited [] [seed]).2.2, ?_, hrem⟩
          exact bfs_components_acc_mono v innerFuel fuel _ _ _ _
            (List.mem_append.mpr (.inr (by simp)))

/-- **Soundness**: every collected component is nonempty, and all its
members are in-range vertices reachable from its head. -/
lemma bfs_components_sound (v : List (List Label)) (innerFuel : Nat)
    (hif : 0 < innerFuel) :
    ∀ (fuel : Nat) (unvisited visited : List Nat) (acc : List (List Nat)),
      (∀ x ∈ unvisited, x < v.length) →
      (∀ comp ∈ acc, ∃ d l, comp = d :: l ∧
        ∀ x ∈ comp, x < v.length ∧ Relation.ReflTransGen (adjacent v) d x) →
      ∀ comp ∈ bfs_components v innerFuel fuel unvisited visited acc,
        ∃ d l, comp = d :: l ∧
          ∀ x ∈ comp, x < v.length ∧ Relation.ReflTransGen (adjacent v) d x
  | 0, _, _, _, _, hacc, comp, hc => hacc comp hc
  | fuel + 1, unvisited, visited, acc, hunv, hacc, comp, hc => by
    match unvisited with
    | [] =>
      rw [bfs_components] at hc
      exact hacc comp hc
    | seed :: unvisited' =>
      rw [bfs_components] at hc
      have hseed : seed < v.length := hunv seed (by simp)
      refine bfs_components_sound v innerFuel hif fuel _ _ _ ?_ ?_ comp hc
      · intro x hx
        exact hunv x (by
          simpa using .inr (bfs_inner_unvisited_sublist v innerFuel
            unvisited' visited [] [seed] |>.mem hx))
      · intro comp' hc'
        rcases List.mem_append.mp hc' with h | h
        · exact hacc comp' h
        · have hcomp' : comp' = (bfs_inner v innerFuel unvisited' visited [] [seed]).2.2 := by
            simpa using h
          obtain ⟨l', hl'⟩ := bfs_inner_start v innerFuel hif unvisited' visited seed
          refine ⟨seed, l', by rw [hcomp', hl'], ?_⟩
          intro x hx
          rw [hcomp'] at hx
          exact bfs_inner_sound v seed innerFuel unvisited' visited [] [seed]
            (by intro y hy; cases hy)
            (by intro y hy; simp at hy; subst hy
                exact ⟨hseed, Relation.ReflTransGen.refl⟩)
            x hx

lemma bfs_fuel_pos (L : List Tensor) (v : List (List Label)) : 0 < bfs_fuel L v := by
  unfold bfs_fuel
  positivity

/-- Every in-range vertex lands in some component of `ccomponents`. -/
lemma ccomponents_cover (L : List Tensor) (v : List (List Label)) (x : Nat)
    (hx : x < L.length) : ∃ comp ∈ ccomponents L v, x ∈ comp := by
  unfold ccomponents
  exact bfs_components_cover v (bfs_fuel L v) (bfs_fuel_pos L v) L.length
    (List.range L.length) [] [] (by simp) x (List.mem_range.mpr hx)

/-- Every component of `ccomponents` is nonempty and consists of in-range
vertices reachable from its head. -/
lemma ccomponents_sound (L : List Tensor) (v : List (List Label))
    (hlen : L.length = v.length) :
    ∀ comp ∈ ccomponents L v, ∃ d l, comp = d :: l ∧
      ∀ x ∈ comp, x < v.length ∧ Relation.ReflTransGen (adjacent v) d x := by
  unfold ccomponents
  exact bfs_components_sound v (bfs_fuel L v) (bfs_fuel_pos L v) L.length
    (List.range L.length) [] []
    (fun x hx => hlen ▸ List.mem_range.mp hx)
    (fun comp hc => absurd hc (List.not_mem_nil comp))

/-- Adjacency transports along a pointwise enlargement of the leg lists. -/
lemma adjacent_mono {v v' : List (List Label)}
    (hlen : v'.length = v.length)
    (hsub : ∀ i, i < v.length → ∀ e, e ∈ v.getD i [] → e ∈ v'.getD i [])
    {i j : Nat} (h : adjacent v i j) : adjacent v' i j := by
  obtain ⟨hi, hj, hij, e, hei, hej⟩ := h
  exact ⟨by omega, by omega, hij, e, hsub i hi e hei, hsub j hj e hej⟩

lemma reach_mono {v v' : List (List Label)}
    (hlen : v'.length = v.length)
    (hsub : ∀ i, i < v.length → ∀ e, e ∈ v.getD i [] → e ∈ v'.getD i [])
    {i j : Nat} (h : Relation.ReflTransGen (adjacent v) i j) :
    Relation.ReflTransGen (adjacent v') i j :=
  Relation.ReflTransGen.mono (fun _ _ hh => adjacent_mono hlen hsub hh) h

/-- One linking step only appends to leg lists. -/
lemma link_step_sub (v : List (List Label)) (c d : Nat) (dim : Label) :
    ∀ i, i < v.length → ∀ e, e ∈ v.getD i [] →
      e ∈ ((v.set c ((v.getD c []) ++ [dim])).set d
            ((v.getD d []) ++ [dim])).getD i [] := by
  intro i hi e he
  by_cases hid : i = d
  · subst hid
    rw [getD_set_self [] _ _ _ (by simpa [List.length_set] using hi)]
    exact List.mem_append.mpr (.inl he)
  · rw [getD_set_ne [] _ _ _ _ (fun h => hid h.symm)]
    by_cases hic : i = c
    · subst hic
      rw [getD_set_self [] _ _ _ hi]
      exact List.mem_append.mpr (.inl he)
    · rw [getD_set_ne [] _ _ _ _ (fun h => hic h.symm)]
      exact he

lemma link_step_v_length (v : List (List Label)) (c d : Nat) (dim : Label) :
    ((v.set c ((v.getD c []) ++ [dim])).set d ((v.getD d []) ++ [dim])).length
      = v.length := by
  simp [List.length_set]

/-- `link_loop` links every vertex to the representative `c`: if initially
every vertex either reaches `c` or reaches the head of one of the pending
components, then in the final leg-list state every vertex reaches `c`. -/
lemma link_loop_conn (c : Nat) :
    ∀ (comps : List (List Nat)) (L : List Tensor) (v : List (List Label))
      (order : List Label) (ev : List BCall),
      c < v.length →
      (∀ x, x < v.length →
        Relation.ReflTransGen (adjacent v) x c
        ∨ ∃ comp ∈ comps, ∃ d ds, comp = d :: ds ∧ d < v.length ∧
            Relation.ReflTransGen (adjacent v) x d) →
      ∀ x, x < (link_loop c comps L v order ev).2.1.length →
        Relation.ReflTransGen (adjacent (link_loop c comps L v order ev).2.1) x c
  | [], L, v, order, ev, hc, hcov, x, hx => by
    rcases hcov x hx with h | ⟨comp, hcomp, _⟩
    · exact h
    · exact absurd hcomp (List.not_mem_nil comp)
  | [] :: rest, L, v, order, ev, hc, hcov, x, hx => by
    show Relation.ReflTransGen (adjacent (link_loop c rest L v order ev).2.1) x c
    refine link_loop_conn c rest L v order ev hc ?_ x hx
    intro y hy
    rcases hcov y hy with h | ⟨comp, hcomp, d, ds, hds, hd, hr⟩
    · exact .inl h
    · rcases List.mem_cons.mp hcomp with h | h
      · exact absurd (hds ▸ h) (by simp)
      · exact .inr ⟨comp, h, d, ds, hds, hd, hr⟩
  | (d :: ds) :: rest, L, v, order, ev, hc, hcov, x, hx => by
    show Relation.ReflTransGen
      (adjacent (link_loop c rest
        ((L.set c (expand_dims (L.getD c default) (v.getD c []).length)).set d
          (expand_dims (L.getD d default) (v.getD d []).length))
        ((v.set c ((v.getD c []) ++ [.int (fresh_label order : Int)])).set d
          ((v.getD d []) ++ [.int (fresh_label order : Int)]))
        (order ++ [.int (fresh_label order : Int)])
        (ev ++ [.expandC, .expandC])).2.1) x c
    set f : Label := .int (fresh_label order : Int) with hf
    set v1 := (v.set c ((v.getD c []) ++ f :: List.nil)).set d
      ((v.getD d []) ++ f :: List.nil) with hv1
    have hlen1 : v1.length = v.length := link_step_v_length v c d f
    have hsub := link_step_sub v c d f
    have hdc : d < v.length → Relation.ReflTransGen (adjacent v1) d c := by
      intro hd
      by_cases hcd : c = d
      · subst hcd
        exact Relation.ReflTransGen.refl
      · refine Relation.ReflTransGen.single ?_
        refine ⟨by omega, by omega, fun h => hcd h.symm, f, ?_, ?_⟩
        · rw [hv1, getD_set_self [] _ _ _ (by simpa [List.length_set] using hd)]
          simp
        · rw [hv1, getD_set_ne [] _ _ _ _ (fun h => hcd h.symm),
             getD_set_self [] _ _ _ hc]
          simp
    refine link_loop_conn c rest _ v1 _ _ (by omega) ?_ x hx
    intro y hy
    rw [hlen1] at hy
    rcases hcov y hy with h | ⟨comp, hcomp, d0, ds0, hds0, hd0, hr⟩
    · exact .inl (reach_mono hlen1 hsub h)
    · rcases List.mem_cons.mp hcomp with h | h
      · have hdd : d0 = d := by
          rw [hds0] at h
          exact (List.cons.injEq _ _ _ _ ▸ h).1
        subst hdd
        exact .inl ((reach_mono hlen1 hsub hr).trans (hdc hd0))
      · exact .inr ⟨comp, h, d0, ds0, hds0, by omega, reach_mono hlen1 hsub hr⟩

/-- The sequence of synthetic labels introduced by `k` linking steps
starting from `order`: each one is the fresh label of the order as
extended so far. -/
def synth_labels (order : List Label) : Nat → List Label
  | 0 => []
  | k + 1 =>
    let f : Label := .int (fresh_label order : Int)
    f :: synth_labels (order ++ [f]) k

lemma fresh_label_pos (order : List Label) : 0 < fresh_label order :=
  (Nat.find_spec (exists_fresh order)).1

lemma fresh_label_not_mem (order : List Label) :
    Label.int (fresh_label order : Int) ∉ order :=
  (Nat.find_spec (exists_fresh order)).2

lemma fresh_label_min (order : List Label) (m : Nat) (hm : 0 < m)
    (hnm : Label.int (m : Int) ∉ order) : fresh_label order ≤ m :=
  Nat.find_min' (exists_fresh order) ⟨hm, hnm⟩

lemma link_loop_lengths (c : Nat) :
    ∀ (comps : List (List Nat)) (L : List Tensor) (v : List (List Label))
      (order : List Label) (ev : List BCall),
      (link_loop c comps L v order ev).1.length = L.length
      ∧ (link_loop c comps L v order ev).2.1.length = v.length
  | [], _, _, _, _ => ⟨rfl, rfl⟩
  | [] :: rest, L, v, order, ev => link_loop_lengths c rest L v order ev
  | (d :: ds) :: rest, L, v, order, ev => by
    have ih := link_loop_lengths c rest
      ((L.set c (expand_dims (L.getD c default) (v.getD c []).length)).set d
        (expand_dims (L.getD d default) (v.getD d []).length))
      ((v.set c ((v.getD c []) ++ [.int (fresh_label order : Int)])).set d
        ((v.getD d []) ++ [.int (fresh_label order : Int)]))
      (order ++ [.int (fresh_label order : Int)])
      (ev ++ [.expandC, .expandC])
    constructor
    · show (link_loop c rest _ _ _ _).1.length = L.length
      rw [ih.1]
      simp [List.length_set]
    · show (link_loop c rest _ _ _ _).2.1.length = v.length
      rw [ih.2]
      simp [List.length_set]

/-- `link_loop` appends exactly the synthetic-label sequence to `order`,
and records two `expand_dims` backend calls per synthetic label. -/
lemma link_loop_order (c : Nat) :
    ∀ (comps : List (List Nat)) (L : List Tensor) (v : List (List Label))
      (order : List Label) (ev : List BCall),
      ∃ k, (link_loop c comps L v order ev).2.2.1 = order ++ synth_labels order k
        ∧ (link_loop c comps L v order ev).2.2.2
          = ev ++ List.replicate (2 * k) BCall.expandC
  | [], L, v, order, ev => ⟨0, by simp [link_loop, synth_labels], by simp [link_loop]⟩
  | [] :: rest, L, v, order, ev => link_loop_order c rest L v order ev
  | (d :: ds) :: rest, L, v, order, ev => by
    obtain ⟨k, horder, hev⟩ := link_loop_order c rest
      ((L.set c (expand_dims (L.getD c default) (v.getD c []).length)).set d
        (expand_dims (L.getD d default) (v.getD d []).length))
      ((v.set c ((v.getD c []) ++ [.int (fresh_label order : Int)])).set d
        ((v.getD d []) ++ [.int (fresh_label order : Int)]))
      (order ++ [.int (fresh_label order : Int)])
      (ev ++ [.expandC, .expandC])
    refine ⟨k + 1, ?_, ?_⟩
    · show (link_loop c rest _ _ _ _).2.2.1 = order ++ synth_labels order (k + 1)
      rw [horder]
      show (order ++ [.int (fresh_label order : Int)])
          ++ synth_labels (order ++ [.int (fresh_label order : Int)]) k
        = order ++ (Label.int (fresh_label order : Int)
            :: synth_labels (order ++ [.int (fresh_label order : Int)]) k)
      rw [List.append_assoc]
      rfl
    · show (link_loop c rest _ _ _ _).2.2.2
        = ev ++ List.replicate (2 * (k + 1)) BCall.expandC
      rw [hev]
      rw [List.append_assoc]
      congr 1

/-- Each vertex's leg list only grows by a suffix during `link_loop`, and
its tensor's shape grows by a matching block of size-1 axes (appended by
`expand_dims` at the old rank). -/
lemma link_loop_extras (c : Nat) :
    ∀ (comps : List (List Nat)) (L : List Tensor) (v : List (List Label))
      (order : List Label) (ev : List BCall),
      net_invariant L v → c < v.length →
      ∀ i, i < v.length →
        ∃ extra : List Label,
          (link_loop c comps L v order ev).2.1.getD i [] = v.getD i [] ++ extra
          ∧ ((link_loop c comps L v order ev).1.getD i default).shape
            = (L.getD i default).shape ++ List.replicate extra.length 1
  | [], L, v, order, ev, _, _, i, _ => ⟨[], by simp [link_loop], by simp [link_loop]⟩
  | [] :: rest, L, v, order, ev, hinv, hc, i, hi =>
    link_loop_extras c rest L v order ev hinv hc i hi
  | (d :: ds) :: rest, L, v, order, ev, hinv, hc, i, hi => by
    have hLlen : L.length = v.length := hinv.1
    set f : Label := .int (fresh_label order : Int) with hf
    set L1 := (L.set c (expand_dims (L.getD c default) (v.getD c []).length)).set d
      (expand_dims (L.getD d default) (v.getD d []).length) with hL1
    set v1 := (v.set c ((v.getD c []) ++ f :: List.nil)).set d
      ((v.getD d []) ++ f :: List.nil) with hv1
    have hlen1 : v1.length = v.length := link_step_v_length v c d f
    have hinv1 : net_invariant L1 v1 := link_step_inv L v c d f hinv
    obtain ⟨ex2, hv2, hL2⟩ := link_loop_extras c rest L1 v1
      (order ++ [f]) (ev ++ [.expandC, .expandC]) hinv1 (by omega) i (by omega)
    have hstep : ∃ ex1 : List Label,
        v1.getD i [] = v.getD i [] ++ ex1
        ∧ (L1.getD i default).shape
          = (L.getD i default).shape ++ List.replicate ex1.length 1 := by
      by_cases hid : i = d
      · subst hid
        refine ⟨[f], ?_, ?_⟩
        · rw [hv1, getD_set_self [] _ _ _ (by simpa [List.length_set] using hi)]
        · rw [hL1, getD_set_self default _ _ _ (by simp [List.length_set]; omega)]
          show ((L.getD i default).shape.insertIdx (v.getD i []).length 1)
            = (L.getD i default).shape ++ List.replicate 1 1
          rw [hinv.2 i hi]
          rw [List.insertIdx_length_self]
          rfl
      · by_cases hic : i = c
        · subst hic
          refine ⟨[f], ?_, ?_⟩
          · rw [hv1, getD_set_ne [] _ _ _ _ (fun h => hid h.symm),
              getD_set_self [] _ _ _ hi]
          · rw [hL1, getD_set_ne default _ _ _ _ (fun h => hid h.symm),
              getD_set_self default _ _ _ (by omega)]
            show ((L.getD i default).shape.insertIdx (v.getD i []).length 1)
              = (L.getD i default).shape ++ List.replicate 1 1
            rw [hinv.2 i hi]
            rw [List.insertIdx_length_self]
            rfl
        · refine ⟨[], ?_, ?_⟩
          · rw [hv1, getD_set_ne [] _ _ _ _ (fun h => hid h.symm),
              getD_set_ne [] _ _ _ _ (fun h => hic h.symm)]
            simp
          · rw [hL1, getD_set_ne default _ _ _ _ (fun h => hid h.symm),
              getD_set_ne default _ _ _ _ (fun h => hic h.symm)]
            simp
    obtain ⟨ex1, hs1, hs2⟩ := hstep
    refine ⟨ex1 ++ ex2, ?_, ?_⟩
    · show (link_loop c rest L1 v1 _ _).2.1.getD i [] = v.getD i [] ++ (ex1 ++ ex2)
      rw [hv2, hs1, List.append_assoc]
    · show ((link_loop c rest L1 v1 _ _).1.getD i default).shape
        = (L.getD i default).shape ++ List.replicate (ex1 ++ ex2).length 1
      rw [hL2, hs2, List.append_assoc, List.length_append, List.replicate_add]

lemma getD_append_add {α : Type _} (d : α) :
    ∀ (l₁ l₂ : List α) (j : Nat), (l₁ ++ l₂).getD (l₁.length + j) d = l₂.getD j d
  | [], l₂, j => by simp
  | x :: xs, l₂, j => by
    have ih := getD_append_add d xs l₂ j
    simpa [Nat.succ_add] using ih

lemma take_append_add {α : Type _} :
    ∀ (l₁ l₂ : List α) (j : Nat), (l₁ ++ l₂).take (l₁.length + j) = l₁ ++ l₂.take j
  | [], l₂, j => by simp
  | x :: xs, l₂, j => by
    have ih := take_append_add xs l₂ j
    simpa [Nat.succ_add] using ih

/-- The first `j` synthetic labels do not depend on how many more are
generated afterwards. -/
lemma synth_labels_take :
    ∀ (j k : Nat), j ≤ k → ∀ order : List Label,
      (synth_labels order k).take j = synth_labels order j
  | 0, k, _, order => by simp [synth_labels]
  | j + 1, 0, hjk, order => by omega
  | j + 1, k + 1, hjk, order => by
    show (Label.int (fresh_label order : Int)
        :: synth_labels (order ++ [.int (fresh_label order : Int)]) k).take (j + 1)
      = synth_labels order (j + 1)
    rw [List.take_succ_cons]
    have ih := synth_labels_take j k (by omega)
      (order ++ [.int (fresh_label order : Int)])
    exact congrArg (List.cons (Label.int (fresh_label order : Int))) ih

/-- The `j`-th synthetic label is the fresh label of the order as extended
by the first `j` synthetic labels. -/
lemma synth_labels_getD :
    ∀ (k j : Nat), j < k → ∀ order : List Label,
      (synth_labels order k).getD j (Label.int 0)
        = Label.int (fresh_label (order ++ synth_labels order j) : Int)
  | 0, j, hj, order => by omega
  | k + 1, 0, _, order => by
    show (Label.int (fresh_label order : Int)
        :: synth_labels (order ++ [.int (fresh_label order : Int)]) k).getD 0 (Label.int 0)
      = Label.int (fresh_label (order ++ synth_labels order 0) : Int)
    simp [synth_labels]
  | k + 1, j + 1, hj, order => by
    show (Label.int (fresh_label order : Int)
        :: synth_labels (order ++ [.int (fresh_label order : Int)]) k).getD (j + 1) (Label.int 0)
      = Label.int (fresh_label (order ++ synth_labels order (j + 1)) : Int)
    rw [List.getD_cons_succ]
    have ih := synth_labels_getD k j (by omega)
      (order ++ [.int (fresh_label order : Int)])
    rw [List.append_assoc] at ih
    exact ih

lemma synth_labels_length : ∀ (k : Nat) (order : List Label),
    (synth_labels order k).length = k
  | 0, _ => rfl
  | k + 1, order => by
    show (synth_labels (order ++ [.int (fresh_label order : Int)]) k).length + 1 = k + 1
    rw [synth_labels_length k]

/-- Follows the spec's words (§4.2 / C4): a single linking step appends
the synthetic label — the fresh label of the current `order`, i.e. the
smallest positive integer label not yet in it — as the **last entry** of
the two affected leg lists `c` and `d`, gives the two affected tensors a
new size-1 axis at their old rank via the backend's axis-insertion
operation `expand_dims`, leaves every other tensor and leg list
unchanged, and appends the synthetic label to the end of `order`. -/
def link_appends (c d : Nat) (L : List Tensor) (v : List (List Label))
    (order : List Label) (L' : List Tensor) (v' : List (List Label))
    (order' : List Label) : Prop :=
  v'.length = v.length ∧ L'.length = L.length
  ∧ v'.getD c [] = v.getD c [] ++ [Label.int (fresh_label order : Int)]
  ∧ v'.getD d [] = v.getD d [] ++ [Label.int (fresh_label order : Int)]
  ∧ (∀ i, i < v.length → i ≠ c → i ≠ d → v'.getD i [] = v.getD i [])
  ∧ L'.getD c default = expand_dims (L.getD c default) (v.getD c []).length
  ∧ L'.getD d default = expand_dims (L.getD d default) (v.getD d []).length
  ∧ (∀ i, i < L.length → i ≠ c → i ≠ d → L'.getD i default = L.getD i default)
  ∧ order' = order ++ [Label.int (fresh_label order : Int)]

/-- Follows the spec's words (§4.2 / C4): the final network state arises
from the initial one by a (possibly empty) sequence of linking steps,
each of which joins the fixed representative `c` to some in-range vertex
`d` as described by `link_appends`. -/
inductive LinksTo (c : Nat) :
    List Tensor → List (List Label) → List Label →
    List Tensor → List (List Label) → List Label → Prop
  | refl (L : List Tensor) (v : List (List Label)) (order : List Label) :
      LinksTo c L v order L v order
  | step (L : List Tensor) (v : List (List Label)) (order : List Label)
      (L' : List Tensor) (v' : List (List Label)) (order' : List Label)
      (L2 : List Tensor) (v2 : List (List Label)) (order2 : List Label)
      (d : Nat) :
      c < v.length → d < v.length →
      link_appends c d L v order L' v' order' →
      LinksTo c L' v' order' L2 v2 order2 →
      LinksTo c L v order L2 v2 order2

/-- The linking loop refines the spec-side step relation: every synthetic
label is appended as the last entry of exactly the two affected leg
lists, with the matching `expand_dims` calls, one step per pending
component. -/
lemma link_loop_links (c : Nat) :
    ∀ (comps : List (List Nat)) (L : List Tensor) (v : List (List Label))
      (order : List Label) (ev : List BCall),
      L.length = v.length → c < v.length →
      (∀ comp ∈ comps, ∀ x ∈ comp, x < v.length) →
      LinksTo c L v order
        (link_loop c comps L v order ev).1
        (link_loop c comps L v order ev).2.1
        (link_loop c comps L v order ev).2.2.1
  | [], L, v, order, ev, _, _, _ => LinksTo.refl L v order
  | [] :: rest, L, v, order, ev, hLv, hc, hcomps => by
    show LinksTo c L v order (link_loop c rest L v order ev).1
      (link_loop c rest L v order ev).2.1
      (link_loop c rest L v order ev).2.2.1
    refine link_loop_links c rest L v order ev hLv hc ?_
    intro comp hcomp x hx
    exact hcomps comp (List.mem_cons.mpr (.inr hcomp)) x hx
  | (d :: ds) :: rest, L, v, order, ev, hLv, hc, hcomps => by
    have hd : d < v.length := hcomps (d :: ds) (by simp) d (by simp)
    set f : Label := .int (fresh_label order : Int) with hf
    set L' := (L.set c (expand_dims (L.getD c default) (v.getD c []).length)).set d
      (expand_dims (L.getD d default) (v.getD d []).length) with hL'
    set v' := (v.set c ((v.getD c []) ++ f :: List.nil)).set d
      ((v.getD d []) ++ f :: List.nil) with hv'
    have hvlen : v'.length = v.length := link_step_v_length v c d f
    have hLlen : L'.length = L.length := by
      rw [hL']
      simp [List.length_set]
    have happ : link_appends c d L v order L' v' (order ++ [f]) := by
      refine ⟨hvlen, hLlen, ?_, ?_, ?_, ?_, ?_, ?_, rfl⟩
      · by_cases hcd : c = d
        · rw [hv', ← hcd, getD_set_self [] _ _ _ (by simpa [List.length_set] using hc)]
        · rw [hv', getD_set_ne [] _ _ _ _ (fun h => hcd h.symm),
            getD_set_self [] _ _ _ hc]
      · rw [hv', getD_set_self [] _ _ _ (by simpa [List.length_set] using hd)]
      · intro i hi hic hid
        rw [hv', getD_set_ne [] _ _ _ _ (fun h => hid h.symm),
          getD_set_ne [] _ _ _ _ (fun h => hic h.symm)]
      · by_cases hcd : c = d
        · rw [hL', ← hcd, getD_set_self default _ _ _
            (by simp [List.length_set]; omega)]
        · rw [hL', getD_set_ne default _ _ _ _ (fun h => hcd h.symm),
            getD_set_self default _ _ _ (by omega)]
      · rw [hL', getD_set_self default _ _ _ (by simp [List.length_set]; omega)]
      · intro i hi hic hid
        rw [hL', getD_set_ne default _ _ _ _ (fun h => hid h.symm),
          getD_set_ne default _ _ _ _ (fun h => hic h.symm)]
    refine LinksTo.step L v order L' v' (order ++ [f]) _ _ _ d hc hd happ ?_
    show LinksTo c L' v' (order ++ [f])
      (link_loop c rest L' v' (order ++ [f]) (ev ++ [.expandC, .expandC])).1
      (link_loop c rest L' v' (order ++ [f]) (ev ++ [.expandC, .expandC])).2.1
      (link_loop c rest L' v' (order ++ [f]) (ev ++ [.expandC, .expandC])).2.2.1
    refine link_loop_links c rest L' v' (order ++ [f])
      (ev ++ [.expandC, .expandC]) (by omega) (by omega) ?_
    intro comp hcomp x hx
    have := hcomps comp (List.mem_cons.mpr (.inr hcomp)) x hx
    omega

/-- **C4**: after a successful `connect_graph(L, v, order)` the tensor
graph is connected; the contraction order comes back extended, at the end,
by exactly the synthetic-label sequence, each entry of which is the
smallest positive integer label not already present in the order as it
stood at its insertion; the final state arises from the initial one by
linking steps each of which appends the synthetic label as the last entry
of exactly the two affected leg lists after `expand_dims` gives both
affected tensors a trailing size-1 axis (`LinksTo`, two `expand_dims`
calls per synthetic label in the event trace); every leg list only grows
by a suffix with matching appended size-1 axes; lengths are preserved. -/
theorem connect_graph_spec
    (L : List Tensor) (v : List (List Label)) (order : List Label)
    (L1 : List Tensor) (v1 : List (List Label)) (order1 : List Label)
    (ev : List BCall)
    (hinv : net_invariant L v)
    (h : connect_graph L v order = .ok (L1, v1, order1, ev)) :
    Conn v1
    ∧ (∃ k, order1 = order ++ synth_labels order k
        ∧ ev = List.replicate (2 * k) BCall.expandC)
    ∧ (∀ j, order.length ≤ j → j < order1.length →
        ∃ n : Nat, order1.getD j (Label.int 0) = Label.int (n : Int)
          ∧ 0 < n
          ∧ Label.int (n : Int) ∉ order1.take j
          ∧ ∀ m : Nat, 0 < m → Label.int (m : Int) ∉ order1.take j → n ≤ m)
    ∧ (∃ c, c < v.length ∧ LinksTo c L v order L1 v1 order1)
    ∧ (∀ i, i < v.length →
        ∃ extra : List Label,
          v1.getD i [] = v.getD i [] ++ extra
          ∧ (L1.getD i default).shape
            = (L.getD i default).shape ++ List.replicate extra.length 1)
    ∧ L1.length = L.length ∧ v1.length = v.length := by
  have hlen : L.length = v.length := hinv.1
  unfold connect_graph at h
  rcases hcl : (ccomponents L v).getLast? with _ | lastComp
  · rw [hcl] at h
    exact Except.noConfusion h
  · rw [hcl] at h
    match lastComp, hcl, h with
    | [], hcl, h => exact Except.noConfusion h
    | c :: cs, hcl, h =>
      have hinj := Except.ok.inj h
      -- Facts about the last component.
      have hmem : (c :: cs) ∈ ccomponents L v := List.mem_of_getLast?_eq_some hcl
      obtain ⟨d0, l0, hd0, hsound⟩ := ccomponents_sound L v hlen _ hmem
      injection hd0 with hdc hlc
      subst hdc
      have hc : c < v.length := (hsound c (by simp)).1
      -- Decompose ccomponents into dropLast ++ [c :: cs].
      have hne : ccomponents L v ≠ [] := by
        intro he
        rw [he] at hcl
        simp at hcl
      have hdecomp : (ccomponents L v).dropLast ++ [c :: cs] = ccomponents L v := by
        have hgl : (ccomponents L v).getLast hne = c :: cs := by
          rw [List.getLast?_eq_getLast _ hne] at hcl
          exact Option.some.inj hcl
        rw [← hgl]
        exact List.dropLast_append_getLast hne
      -- Coverage hypothesis for the linking loop.
      have hcov : ∀ x, x < v.length →
          Relation.ReflTransGen (adjacent v) x c
          ∨ ∃ comp ∈ (ccomponents L v).dropLast.reverse, ∃ d ds,
              comp = d :: ds ∧ d < v.length ∧
              Relation.ReflTransGen (adjacent v) x d := by
        intro x hx
        obtain ⟨comp, hcomp, hxc⟩ := ccomponents_cover L v x (by omega)
        rw [← hdecomp] at hcomp
        rcases List.mem_append.mp hcomp with hcomp | hcomp
        · obtain ⟨d, ds, hds, hsd⟩ := ccomponents_sound L v hlen comp
            (by rw [← hdecomp]; exact List.mem_append.mpr (.inl hcomp))
          refine .inr ⟨comp, List.mem_reverse.mpr hcomp, d, ds, hds, ?_, ?_⟩
          · exact (hsd d (by rw [hds]; simp)).1
          · exact reach_symm v (hsd x hxc).2
        · have hce : comp = c :: cs := by simpa using hcomp
          subst hce
          exact .inl (reach_symm v (hsound x hxc).2)
      -- Assemble the conclusions.
      have hlenres := link_loop_lengths c (ccomponents L v).dropLast.reverse
        L v order []
      have hconn := link_loop_conn c (ccomponents L v).dropLast.reverse
        L v order [] hc hcov
      obtain ⟨k, hord, hevt⟩ := link_loop_order c (ccomponents L v).dropLast.reverse
        L v order []
      have hext := link_loop_extras c (ccomponents L v).dropLast.reverse
        L v order [] hinv hc
      rw [hinj] at hlenres hconn hord hevt hext
      have hconn' : ∀ x, x < v1.length →
          Relation.ReflTransGen (adjacent v1) x c := hconn
      have hord' : order1 = order ++ synth_labels order k := hord
      have hevt' : ev = [] ++ List.replicate (2 * k) BCall.expandC := hevt
      have hext' : ∀ i, i < v.length → ∃ extra : List Label,
          v1.getD i [] = v.getD i [] ++ extra
          ∧ (L1.getD i default).shape
            = (L.getD i default).shape ++ List.replicate extra.length 1 := hext
      have hlr : L1.length = L.length ∧ v1.length = v.length := hlenres
      have hcomps : ∀ comp ∈ (ccomponents L v).dropLast.reverse,
          ∀ x ∈ comp, x < v.length := by
        intro comp hcomp x hx
        have hcm : comp ∈ ccomponents L v := by
          rw [← hdecomp]
          exact List.mem_append.mpr (.inl (List.mem_reverse.mp hcomp))
        obtain ⟨dd, ll, hdl, hs⟩ := ccomponents_sound L v hlen comp hcm
        exact (hs x hx).1
      have hlinks := link_loop_links c (ccomponents L v).dropLast.reverse
        L v order [] hlen hc hcomps
      rw [hinj] at hlinks
      have hlinks' : LinksTo c L v order L1 v1 order1 := hlinks
      refine ⟨?_, ⟨k, hord', by simpa using hevt'⟩, ?_, ⟨c, hc, hlinks'⟩,
        hext', hlr.1, hlr.2⟩
      · intro i j hi hj
        exact (hconn' i hi).trans (reach_symm v1 (hconn' j hj))
      · -- minimality of each synthetic label at its insertion point
        intro j hj1 hj2
        rw [hord'] at hj2 ⊢
        rw [List.length_append] at hj2
        obtain ⟨j', rfl⟩ : ∃ j', j = order.length + j' := ⟨j - order.length, by omega⟩
        have hsl := synth_labels_length k order
        have hj' : j' < k := by omega
        rw [getD_append_add, take_append_add]
        rw [synth_labels_getD k j' hj' order,
          synth_labels_take j' k (by omega) order]
        refine ⟨fresh_label (order ++ synth_labels order j'), rfl, ?_, ?_, ?_⟩
        · exact fresh_label_pos _
        · exact fresh_label_not_mem _
        · intro m hm hnm
          exact fresh_label_min _ m hm hnm

/-- Applies `connect_graph_spec` to a concrete disconnected two-tensor
network, discharging its hypotheses: the repaired graph is connected. -/
theorem connect_graph_spec_witness :
    net_invariant [⟨[2], false, fun _ _ _ => false⟩, ⟨[3], false, fun _ _ _ => false⟩]
      [[Label.int (-1)], [Label.int (-2)]]
    ∧ Conn [[Label.int (-1), Label.int 1], [Label.int (-2), Label.int 1]] := by
  have hinv : net_invariant
      [⟨[2], false, fun _ _ _ => false⟩, ⟨[3], false, fun _ _ _ => false⟩]
      [[Label.int (-1)], [Label.int (-2)]] := ⟨rfl, by decide⟩
  have hf : fresh_label [] = 1 := by
    rw [fresh_label, Nat.find_eq_iff]
    refine ⟨⟨by decide, by decide⟩, ?_⟩
    decide
  have h0 : connect_graph
      [⟨[2], false, fun _ _ _ => false⟩, ⟨[3], false, fun _ _ _ => false⟩]
      [[Label.int (-1)], [Label.int (-2)]] []
      = .ok ([⟨[2, 1], false, fun _ _ _ => false⟩, ⟨[3, 1], false, fun _ _ _ => false⟩],
          [[Label.int (-1), Label.int (fresh_label [] : Int)],
           [Label.int (-2), Label.int (fresh_label [] : Int)]],
          [Label.int (fresh_label [] : Int)], [.expandC, .expandC]) := rfl
  rw [hf] at h0
  exact ⟨hinv, (connect_graph_spec _ _ _ _ _ _ _ hinv h0).1⟩
